import Mathlib

/-!
Verification development for the Documint RAG pipeline
(`src/rag/{chunking,cleaning,retrieval,generation,parsing,config}.py`).

The Python code is shallowly embedded: pure functions become Lean
functions on `List Char` / `String` / `Nat` / `Int`; Python `float`
distances are modelled as `ℚ` (their ordering is what the code uses);
external effects (the FAISS search, the tokenizers, the Groq LLM call,
`%.4f` float formatting) are passed in as oracle function arguments.
Character classes are modelled over ASCII; the `\n`-only line splitting
matches every text the pipeline itself produces.
-/

set_option autoImplicit false

namespace Documint

/-! ## Python string primitives -/

/-- Python's `\s` / `str.strip()` whitespace class (ASCII fragment). -/
def isPyWs (c : Char) : Bool :=
  c = ' ' || c = '\t' || c = '\n' || c = '\r' || c = '\x0b' || c = '\x0c'

/-- `str.strip()` on a character list: drop whitespace from both ends. -/
def pyStripChars (cs : List Char) : List Char :=
  ((cs.dropWhile isPyWs).reverse.dropWhile isPyWs).reverse

/-- `str.strip()`. -/
def pyStrip (s : String) : String :=
  String.mk (pyStripChars s.data)

/-- `sep.join(parts)`. -/
def pyJoin (sep : String) : List String → String
  | [] => ""
  | [x] => x
  | x :: y :: xs => x ++ sep ++ pyJoin sep (y :: xs)

/-- `str.startswith(pre)` at the character level. -/
def startsWithChars : List Char → List Char → Bool
  | [], _ => true
  | _ :: _, [] => false
  | p :: ps, c :: cs => p = c && startsWithChars ps cs

/-- `s.startswith(pre)`. -/
def pyStartsWith (s pre : String) : Bool :=
  startsWithChars pre.data s.data

/-- `re.findall(r"\S+", text)` on characters: maximal runs of
non-whitespace characters, collected with an accumulator holding the
current run in reverse. -/
def findWordsAux (acc : List Char) : List Char → List (List Char)
  | [] => if acc = [] then [] else [acc.reverse]
  | c :: cs =>
    if isPyWs c then
      if acc = [] then findWordsAux [] cs else acc.reverse :: findWordsAux [] cs
    else findWordsAux (c :: acc) cs

/-- `re.findall(r"\S+", text)`. -/
def findWords (text : String) : List String :=
  (findWordsAux [] text.data).map String.mk

/-! ## Chunking (`src/rag/chunking.py`) -/

/-- The placeholder artifacts `_chunk_text` discards. -/
def specialChunks : List String := ["[CLS]", "[SEP]", "[CLS] [SEP]"]

/-- `words[a:b]` for `a ≤ b`. -/
def sliceList {α : Type} (l : List α) (a b : Nat) : List α :=
  (l.drop a).take (b - a)

/-- `" ".join(words[a:b]).strip()`, the text of the window `(a, b)`. -/
def windowText (words : List String) (w : Nat × Nat) : String :=
  pyStrip (pyJoin " " (sliceList words w.1 w.2))

/-- Whether `_chunk_text` would discard the window text. -/
def badWindow (words : List String) (w : Nat × Nat) : Bool :=
  windowText words w = "" || (windowText words w) ∈ specialChunks

/-- The loop `for start in range(0, len(words), step)` of
`TokenChunker._chunk_text`, including the skip of empty/placeholder
windows and the `break` once a kept window reaches the end of `words`.
Python's `range` needs a positive step and `_chunk_text` always passes
`step = max(size - overlap, 1) ≥ 1`; `max step 1` records that bound.
The loop advances `start` by at least one word per iteration, so the
remaining word count `gas = words.length - start` bounds the number of
iterations and drives the recursion. -/
def chunkFromAux (size step : Nat) (words : List String) : Nat → Nat → List String
  | 0, _ => []
  | gas + 1, start =>
    if start < words.length then
      let e := min (start + size) words.length
      if badWindow words (start, e) then chunkFromAux size step words gas (start + max step 1)
      else if e = words.length then [windowText words (start, e)]
      else windowText words (start, e) :: chunkFromAux size step words gas (start + max step 1)
    else []

/-- The `_chunk_text` loop started at word index `start`. -/
def chunkFrom (size step : Nat) (words : List String) (start : Nat) : List String :=
  chunkFromAux size step words (words.length - start) start

/-- `TokenChunker._chunk_text`.  The configured sizes are Python ints,
modelled as `Int`; the clamping mirrors
`size = max(cfg.chunk_size_tokens, 1)`,
`overlap = max(min(cfg.chunk_overlap_tokens, size - 1), 0)`,
`step = max(size - overlap, 1)`. -/
def chunk_text (chunkSizeTokens chunkOverlapTokens : Int) (text : String) : List String :=
  let words := findWords text
  if words = [] then []
  else
    let size : Int := max chunkSizeTokens 1
    let overlap : Int := max (min chunkOverlapTokens (size - 1)) 0
    let step : Int := max (size - overlap) 1
    chunkFrom size.toNat step.toNat words 0

/-- The effective window size `_chunk_text` uses. -/
def effSize (cs : Int) : Nat := (max cs 1).toNat

/-- The effective overlap after clamping into `[0, size - 1]`. -/
def effOverlap (cs co : Int) : Nat :=
  (max (min co (max cs 1 - 1)) 0).toNat

/-- The effective step `max(size - overlap, 1)`. -/
def effStep (cs co : Int) : Nat :=
  (max (max cs 1 - max (min co (max cs 1 - 1)) 0) 1).toNat

/-- The `(start, end)` pairs of the windows the `_chunk_text` loop
visits, with the same advance and `break` structure as `chunkFromAux`
but ignoring the empty/placeholder discard. -/
def windowsFromAux (size step n : Nat) : Nat → Nat → List (Nat × Nat)
  | 0, _ => []
  | gas + 1, start =>
    if start < n then
      let e := min (start + size) n
      if e = n then [(start, e)]
      else (start, e) :: windowsFromAux size step n gas (start + max step 1)
    else []

/-- The windows of the `_chunk_text` loop started at word index `start`
over a word sequence of length `n`. -/
def windowsFrom (size step n : Nat) (start : Nat) : List (Nat × Nat) :=
  windowsFromAux size step n (n - start) start

/-! ## Chunk metadata and documents (`TokenChunker.chunk_pages`) -/

/-- The per-chunk metadata dict of `chunk_pages`. -/
structure ChunkMeta where
  chunk_id : String
  section_or_page : String
  source_file : String
  parsing_method : String
deriving DecidableEq

/-- A LangChain `Document` as `chunk_pages` builds it. -/
structure Document where
  page_content : String
  metadata : ChunkMeta
deriving DecidableEq

/-- `f"{n:05d}"` for a nonnegative int: zero-pad to width 5 (wider
numbers keep all their digits). -/
def zeroPad (w : Nat) (s : String) : String :=
  String.mk (List.replicate (w - s.length) '0') ++ s

/-- The id `f"chunk-{counter:05d}"`. -/
def chunkId (counter : Nat) : String := "chunk-" ++ zeroPad 5 (Nat.repr counter)

/-- The section loop of `TokenChunker.chunk_pages`: `counter` is the
running chunk counter, incremented once per produced chunk and never
reset at a section boundary. -/
def chunkPagesAux (cs co : Int) (source_file parsing_method : String) :
    Nat → List (String × String) → List Document
  | _, [] => []
  | counter, (sec_id, text) :: rest =>
    let pcs := chunk_text cs co text
    (pcs.enum.map (fun ip =>
      { page_content := ip.2,
        metadata :=
          { chunk_id := chunkId (counter + ip.1 + 1),
            section_or_page := sec_id,
            source_file := source_file,
            parsing_method := parsing_method } })) ++
      chunkPagesAux cs co source_file parsing_method (counter + pcs.length) rest

/-- `TokenChunker.chunk_pages`. -/
def chunk_pages (cs co : Int) (cleaned_pages : List (String × String))
    (source_file parsing_method : String) : List Document :=
  chunkPagesAux cs co source_file parsing_method 0 cleaned_pages

/-! ## Retrieval (`src/rag/retrieval.py`) -/

/-- The `RAGConfig` fields retrieval and generation read; Python float
settings are modelled as `ℚ`. -/
structure RAGConfig where
  top_k : Nat
  max_distance : ℚ
  max_query_tokens : Nat
  max_context_tokens : Nat
  max_output_tokens : Nat
deriving DecidableEq

/-- Python `min(xs, key=f)`: the first element attaining the minimal
key, folded left over the remaining elements. -/
def pyMinBy {α : Type} (f : α → ℚ) : α → List α → α
  | best, [] => best
  | best, a :: rest => pyMinBy f (if f a < f best then a else best) rest

/-- `Retriever.retrieve`, with the embedding tokenizer passed as the
oracle `countTokens` and the FAISS `similarity_search_with_score`
result as the oracle `searchResults`; `threshold` is the already
resolved `max_distance` default.  Raised `ValueError`s become
`Except.error`. -/
def retrieve (cfg : RAGConfig) (countTokens : String → Nat) (threshold : ℚ)
    (searchResults : List (Document × ℚ)) (query : String) :
    Except String (List (Document × ℚ)) :=
  if cfg.max_query_tokens < countTokens query then
    .error "Query too long. Please shorten your question."
  else if searchResults = [] then .error "No relevant context found"
  else
    let filtered := searchResults.filter (fun p => p.2 ≤ threshold)
    if filtered = [] then
      match searchResults with
      | [] => .ok []
      | x :: xs => .ok [pyMinBy (fun p => p.2) x xs]
    else .ok filtered

/-! ## Generation (`src/rag/generation.py`) -/

/-- A citation dict (`chunk_id`, `section`, `score`); `sec` models the
`"section"` key (`section` is a Lean keyword). -/
structure Citation where
  chunk_id : String
  sec : String
  score : ℚ
deriving DecidableEq

/-- The rendered header-plus-body segment for one retrieved chunk;
`fmtScore` stands for Python's `f"{score:.4f}"` float formatting. -/
def mkSegment (fmtScore : ℚ → String) (p : Document × ℚ) : String :=
  "[chunk_id=" ++ p.1.metadata.chunk_id ++ " | section=" ++
    p.1.metadata.section_or_page ++ " | score=" ++ fmtScore p.2 ++ "]" ++
    "\n" ++ pyStrip p.1.page_content

def mkCitation (p : Document × ℚ) : Citation :=
  { chunk_id := p.1.metadata.chunk_id,
    sec := p.1.metadata.section_or_page,
    score := p.2 }

/-- The packing loop of `GroqGenerator._build_context`: stop at the
first segment whose inclusion would exceed the budget. -/
def buildContextAux (tok : String → Nat) (fmtScore : ℚ → String) (maxCtx : Nat) :
    Nat → List (Document × ℚ) → List String × List Citation
  | _, [] => ([], [])
  | total, p :: rest =>
    let seg := mkSegment fmtScore p
    if maxCtx < total + tok seg then ([], [])
    else
      let r := buildContextAux tok fmtScore maxCtx (total + tok seg) rest
      (seg :: r.1, mkCitation p :: r.2)

/-- `GroqGenerator._build_context`: the generation tokenizer is the
oracle `tok`. -/
def build_context (tok : String → Nat) (fmtScore : ℚ → String) (maxCtx : Nat)
    (docs_with_scores : List (Document × ℚ)) : String × List Citation :=
  let r := buildContextAux tok fmtScore maxCtx 0 docs_with_scores
  (pyJoin "\n\n" r.1, r.2)

/-- `GroqGenerator.generate`, with the LLM call (including its internal
decommission-fallback retries, which only affect the successful answer
text) as the oracle `llm`. -/
def generate (cfg : RAGConfig) (tok : String → Nat) (fmtScore : ℚ → String)
    (llm : String → String → String) (question : String)
    (docs_with_scores : List (Document × ℚ)) : String × List Citation :=
  if docs_with_scores = [] then
    ("I cannot answer based on the provided document.", [])
  else if cfg.max_query_tokens < tok question then
    ("Your question is too long. Please shorten it.", [])
  else
    let ctx := build_context tok fmtScore cfg.max_context_tokens docs_with_scores
    if ctx.1 = "" then ("I cannot answer based on the provided document.", [])
    else
      let answer := pyStrip (llm ctx.1 question)
      let items := ctx.2.map (fun c => c.chunk_id ++ " (" ++ c.sec ++ ")")
      let suffix := if items = [] then " [none]"
                    else " [" ++ pyJoin " ; " items ++ "]"
      (answer ++ suffix, ctx.2)

/-! ## Cleaning (`src/rag/cleaning.py`) -/

/-- `ParsedDocument` from `src/rag/parsing.py`. -/
structure ParsedDocument where
  source_path : String
  source_filename : String
  sections_text : List (String × String)
  parsing_method : String
  page_count : Nat
deriving DecidableEq

/-- Split on newline characters, keeping empty segments (always returns
at least one segment). -/
def splitOnNl : List Char → List (List Char)
  | [] => [[]]
  | c :: cs =>
    if c = '\n' then [] :: splitOnNl cs
    else
      match splitOnNl cs with
      | [] => [[c]]
      | l :: ls => (c :: l) :: ls

/-- Python `str.splitlines()` restricted to `"\n"` line breaks — the
only line separator the pipeline's own texts contain: no trailing
empty line for a trailing newline, and `[]` on the empty string. -/
def splitlinesChars (cs : List Char) : List (List Char) :=
  match cs with
  | [] => []
  | _ =>
    if cs.getLast? = some '\n' then (splitOnNl cs).dropLast else splitOnNl cs

def isDigitCh (c : Char) : Bool := '0' ≤ c && c ≤ '9'

/-- `re.fullmatch(r"[Pp]age\s*\d+(\s*/\s*\d+)?", s)` (ASCII). -/
def matchPageNum (cs : List Char) : Bool :=
  match cs with
  | p :: a :: g :: e :: rest =>
    (p = 'P' || p = 'p') && a = 'a' && g = 'g' && e = 'e' &&
      (let r1 := rest.dropWhile isPyWs
       let ds := r1.takeWhile isDigitCh
       let r2 := r1.dropWhile isDigitCh
       if ds = [] then false
       else if r2 = [] then true
       else
         match r2.dropWhile isPyWs with
         | '/' :: r4 =>
           let r5 := r4.dropWhile isPyWs
           (r5.takeWhile isDigitCh ≠ []) && r5.dropWhile isDigitCh = []
         | _ => false)
  | _ => false

/-- `_is_page_number`. -/
def is_page_number (line : String) : Bool :=
  let s := pyStripChars line.data
  matchPageNum s || (s ≠ [] && s.all isDigitCh)

/-- `re.fullmatch(r"[-–—_=]{3,}", l)`: a decorative separator line. -/
def isSeparatorLine (cs : List Char) : Bool :=
  3 ≤ cs.length && cs.all (fun c => c = '-' || c = '–' || c = '—' || c = '_' || c = '=')

def isSpTab (c : Char) : Bool := c = ' ' || c = '\t'

/-- `re.sub(r"[ \t]+", " ", ...)`: collapse each maximal run of spaces
and tabs to a single space. -/
def collapseSpTab : List Char → List Char
  | [] => []
  | [c] => if isSpTab c then [' '] else [c]
  | c :: d :: cs =>
    if isSpTab c && isSpTab d then collapseSpTab (d :: cs)
    else (if isSpTab c then ' ' else c) :: collapseSpTab (d :: cs)

/-- `re.sub(r"\n{3,}", "\n\n", ...)`: a newline followed by two more
newlines is dropped, so each run of 3+ newlines shrinks to exactly
two. -/
def collapseNl : List Char → List Char
  | [] => []
  | [c] => [c]
  | [c, d] => [c, d]
  | c :: d :: e :: cs =>
    if c = '\n' && d = '\n' && e = '\n' then collapseNl (d :: e :: cs)
    else c :: collapseNl (d :: e :: cs)

/-- `_normalize_spaces` (the final `.strip()` included). -/
def normalize_spaces (cs : List Char) : List Char :=
  pyStripChars (collapseNl (collapseSpTab cs))

/-- The header candidate the code computes for a section:
`lines[0].strip()` — the first line (possibly blank), stripped. -/
def headerOf (text : String) : Option (List Char) :=
  (splitlinesChars text.data).head?.map pyStripChars

/-- The footer candidate: `lines[-1].strip()`. -/
def footerOf (text : String) : Option (List Char) :=
  (splitlinesChars text.data).getLast?.map pyStripChars

def headerCount (secs : List (String × String)) (v : List Char) : Nat :=
  secs.countP (fun st => headerOf st.2 = some v)

def footerCount (secs : List (String × String)) (v : List Char) : Nat :=
  secs.countP (fun st => footerOf st.2 = some v)

/-- Membership of a stripped line in `common_headers`:
its count is `≥ max(2, total_sections // 5)`. -/
def isCommonHeader (secs : List (String × String)) (v : List Char) : Bool :=
  max 2 (secs.length / 5) ≤ headerCount secs v

def isCommonFooter (secs : List (String × String)) (v : List Char) : Bool :=
  max 2 (secs.length / 5) ≤ footerCount secs v

/-- The guard for the header/footer/page-number heuristics:
`doc.parsing_method == "deterministic" and sec_id.startswith("page-")`. -/
def heuristicsApply (doc : ParsedDocument) (sec_id : String) : Bool :=
  doc.parsing_method = "deterministic" && pyStartsWith sec_id "page-"

/-- The per-line filter of `clean_text` applied to the stripped line
`l`: drop empty lines; under the paginated heuristics drop common
headers/footers and page numbers; always drop decorative separators. -/
def keepLine (doc : ParsedDocument) (sec_id : String) (l : List Char) : Bool :=
  l ≠ [] &&
  (!(heuristicsApply doc sec_id) ||
    (!(isCommonHeader doc.sections_text l) && !(isCommonFooter doc.sections_text l) &&
     !(is_page_number (String.mk l)))) &&
  !(isSeparatorLine l)

/-- The kept (stripped) lines of one section. -/
def cleanSectionLines (doc : ParsedDocument) (sec_id text : String) : List (List Char) :=
  ((splitlinesChars text.data).map pyStripChars).filter (keepLine doc sec_id)

/-- `"\n".join(...)` at the character level. -/
def joinLinesChars : List (List Char) → List Char
  | [] => []
  | [l] => l
  | l :: l2 :: ls => l ++ '\n' :: joinLinesChars (l2 :: ls)

/-- One section's cleaned text. -/
def cleanSection (doc : ParsedDocument) (sec_id text : String) : String :=
  String.mk (normalize_spaces (joinLinesChars (cleanSectionLines doc sec_id text)))

/-- `clean_text`. -/
def clean_text (doc : ParsedDocument) : List (String × String) :=
  doc.sections_text.map (fun st => (st.1, cleanSection doc st.1 st.2))

/-- Cleaned sections re-wrapped as a document with the same ids and the
same parsing method (for the idempotence claim). -/
def rewrap (doc : ParsedDocument) (secs : List (String × String)) : ParsedDocument :=
  { doc with sections_text := secs }

/-- Modelled from the claim's wording (C5): the header candidate as the
first non-empty line of a section, stripped. -/
def headerOfClaim (text : String) : Option (List Char) :=
  ((splitlinesChars text.data).map pyStripChars).find? (fun l => l ≠ [])

/-- Modelled from the claim's wording (C5): the last non-empty line. -/
def footerOfClaim (text : String) : Option (List Char) :=
  ((splitlinesChars text.data).map pyStripChars).reverse.find? (fun l => l ≠ [])

def headerCountClaim (secs : List (String × String)) (v : List Char) : Nat :=
  secs.countP (fun st => headerOfClaim st.2 = some v)

def footerCountClaim (secs : List (String × String)) (v : List Char) : Nat :=
  secs.countP (fun st => footerOfClaim st.2 = some v)

def isCommonHeaderClaim (secs : List (String × String)) (v : List Char) : Bool :=
  max 2 (secs.length / 5) ≤ headerCountClaim secs v

def isCommonFooterClaim (secs : List (String × String)) (v : List Char) : Bool :=
  max 2 (secs.length / 5) ≤ footerCountClaim secs v

def keepLineClaim (doc : ParsedDocument) (sec_id : String) (l : List Char) : Bool :=
  l ≠ [] &&
  (!(heuristicsApply doc sec_id) ||
    (!(isCommonHeaderClaim doc.sections_text l) &&
     !(isCommonFooterClaim doc.sections_text l) &&
     !(is_page_number (String.mk l)))) &&
  !(isSeparatorLine l)

def cleanSectionClaim (doc : ParsedDocument) (sec_id text : String) : String :=
  String.mk (normalize_spaces (joinLinesChars
    (((splitlinesChars text.data).map pyStripChars).filter (keepLineClaim doc sec_id))))

/-- The cleaner as claim C5 words it: identical to `clean_text` except
that header/footer candidates are the first/last *non-empty* lines. -/
def clean_textClaim (doc : ParsedDocument) : List (String × String) :=
  doc.sections_text.map (fun st => (st.1, cleanSectionClaim doc st.1 st.2))

/-! ## Parsing (`src/rag/parsing.py`) -/

/-- The content `parse_file` reads, abstracted per paginated format:
page texts of a PDF (as PyMuPDF extracts them) or per-slide shape texts
of a PPTX. -/
inductive FileInput where
  | pdfFile (pages : List String)
  | pptxFile (slides : List (List String))
deriving DecidableEq

/-- `_parse_pdf`: page-limit check, then one `page-<n>` section per
page (even when there are zero pages). -/
def parse_pdf (path filename : String) (cfgMaxPagesPdf : Nat) (pages : List String) :
    Except String ParsedDocument :=
  if cfgMaxPagesPdf < pages.length then
    .error ("PDF has " ++ Nat.repr pages.length ++ " pages; limit is " ++
      Nat.repr cfgMaxPagesPdf)
  else
    .ok { source_path := path, source_filename := filename,
          sections_text := pages.enum.map
            (fun ip => ("page-" ++ Nat.repr (ip.1 + 1), ip.2)),
          parsing_method := "deterministic", page_count := pages.length }

/-- `_parse_pptx`: one `slide-<n>` section per slide joining its
nonempty shape texts (even when there are zero slides). -/
def parse_pptx (path filename : String) (slides : List (List String)) :
    Except String ParsedDocument :=
  .ok { source_path := path, source_filename := filename,
        sections_text := slides.enum.map (fun ip =>
          ("slide-" ++ Nat.repr (ip.1 + 1),
           pyJoin "\n" (ip.2.filter (fun t => t ≠ "")))),
        parsing_method := "deterministic", page_count := slides.length }

/-- `parse_file` restricted to the paginated deterministic branches
(`.pdf`, `.pptx`); its try/except only logs and re-raises, adding no
checks. -/
def parse_file (path filename : String) (cfgMaxPagesPdf : Nat) (input : FileInput) :
    Except String ParsedDocument :=
  match input with
  | .pdfFile pages => parse_pdf path filename cfgMaxPagesPdf pages
  | .pptxFile slides => parse_pptx path filename slides

/-! ## Slice lemmas -/

theorem sliceList_length {α : Type} (l : List α) (a b : Nat) :
    (sliceList l a b).length = min (b - a) (l.length - a) := by
  simp [sliceList]

theorem sliceList_take {α : Type} (l : List α) (a b k : Nat) :
    (sliceList l a b).take k = sliceList l a (min (a + k) b) := by
  simp only [sliceList, List.take_take]
  congr 1
  omega

theorem sliceList_drop {α : Type} (l : List α) (a b k : Nat) :
    (sliceList l a b).drop k = sliceList l (a + k) b := by
  have h1 : b - a - k = b - (a + k) := by omega
  have h2 : k + a = a + k := by omega
  simp only [sliceList, List.drop_take, List.drop_drop, h1, h2]

theorem sliceList_append {α : Type} (l : List α) (a m b : Nat)
    (h1 : a ≤ m) (h2 : m ≤ b) :
    sliceList l a m ++ sliceList l m b = sliceList l a b := by
  have hba : b - a = (m - a) + (b - m) := by omega
  have hm : a + (m - a) = m := by omega
  simp only [sliceList, hba, List.take_add, List.drop_drop, hm]

theorem sliceList_nil {α : Type} (l : List α) (a b : Nat) (h : b ≤ a) :
    sliceList l a b = [] := by
  simp [sliceList, Nat.sub_eq_zero_of_le h]

/-! ## Window-loop unfolding lemmas -/

theorem windowsFromAux_stop (size step n gas start : Nat) (h : ¬ start < n) :
    windowsFromAux size step n gas start = [] := by
  cases gas <;> simp [windowsFromAux, h]

theorem windowsFromAux_last (size step n gas start : Nat)
    (h1 : start < n) (h2 : n ≤ start + size) :
    windowsFromAux size step n (gas + 1) start = [(start, n)] := by
  simp [windowsFromAux, h1, Nat.min_eq_right h2]

theorem windowsFromAux_cons (size step n gas start : Nat)
    (h1 : start < n) (h2 : ¬ n ≤ start + size) :
    windowsFromAux size step n (gas + 1) start =
      (start, start + size) :: windowsFromAux size step n gas (start + max step 1) := by
  have hmin : min (start + size) n = start + size := Nat.min_eq_left (by omega)
  simp only [windowsFromAux, h1, if_true, hmin]
  rw [if_neg (by omega)]

theorem chunkFromAux_stop (size step : Nat) (words : List String) (gas start : Nat)
    (h : ¬ start < words.length) :
    chunkFromAux size step words gas start = [] := by
  cases gas <;> simp [chunkFromAux, h]

theorem chunkFromAux_succ (size step : Nat) (words : List String) (gas start : Nat)
    (h : start < words.length) :
    chunkFromAux size step words (gas + 1) start =
      if badWindow words (start, min (start + size) words.length) then
        chunkFromAux size step words gas (start + max step 1)
      else if min (start + size) words.length = words.length then
        [windowText words (start, min (start + size) words.length)]
      else windowText words (start, min (start + size) words.length) ::
        chunkFromAux size step words gas (start + max step 1) := by
  simp [chunkFromAux, h]

/-- If no visited window is discarded, the `_chunk_text` loop returns
exactly the window texts, in order. -/
theorem chunkFromAux_eq_map (size step : Nat) (words : List String) :
    ∀ gas start : Nat,
    (∀ w ∈ windowsFromAux size step words.length gas start, badWindow words w = false) →
    chunkFromAux size step words gas start =
      (windowsFromAux size step words.length gas start).map (windowText words) := by
  intro gas
  induction gas with
  | zero => intro start _; simp [chunkFromAux, windowsFromAux]
  | succ g ih =>
    intro start h
    by_cases hlt : start < words.length
    · by_cases hend : words.length ≤ start + size
      · rw [windowsFromAux_last _ _ _ _ _ hlt hend] at h ⊢
        have hb := h _ (List.mem_singleton.mpr rfl)
        rw [chunkFromAux_succ _ _ _ _ _ hlt]
        have hmin : min (start + size) words.length = words.length :=
          Nat.min_eq_right hend
        rw [hmin, if_neg (by simp [hb]), if_pos rfl]
        simp [hmin]
      · rw [windowsFromAux_cons _ _ _ _ _ hlt hend] at h ⊢
        have hb := h _ (List.mem_cons_self _ _)
        rw [chunkFromAux_succ _ _ _ _ _ hlt]
        have hmin : min (start + size) words.length = start + size :=
          Nat.min_eq_left (by omega)
        rw [hmin, if_neg (by simp [hb]), if_neg (by omega), List.map_cons]
        congr 1
        exact ih _ (fun w hw => h w (List.mem_cons_of_mem _ hw))
    · rw [windowsFromAux_stop _ _ _ _ _ hlt, chunkFromAux_stop _ _ _ _ _ hlt]
      simp

/-- Positions of the visited windows: the `i`-th window starts at
`start + i * step` and ends `size` words later, clipped to `n`. -/
theorem windowsFromAux_get (size step n : Nat) :
    ∀ gas start : Nat, n - start ≤ gas →
    ∀ i : Nat, i < (windowsFromAux size step n gas start).length →
    (windowsFromAux size step n gas start)[i]? =
      some (start + i * max step 1, min (start + i * max step 1 + size) n) := by
  intro gas
  induction gas with
  | zero =>
    intro start hgas i h
    rw [windowsFromAux_stop _ _ _ _ _ (by omega)] at h
    simp at h
  | succ g ih =>
    intro start hgas i h
    by_cases hlt : start < n
    · by_cases hend : n ≤ start + size
      · rw [windowsFromAux_last _ _ _ _ _ hlt hend] at h ⊢
        simp only [List.length_singleton] at h
        have hi : i = 0 := by omega
        subst hi
        simp [Nat.min_eq_right hend]
      · rw [windowsFromAux_cons _ _ _ _ _ hlt hend] at h ⊢
        match i with
        | 0 =>
          have : min (start + size) n = start + size := Nat.min_eq_left (by omega)
          simp [this]
        | i + 1 =>
          simp only [List.length_cons, Nat.add_lt_add_iff_right] at h
          simp only [List.getElem?_cons_succ]
          rw [ih (start + max step 1) (by omega) i h]
          have h1 : start + max step 1 + i * max step 1 = start + (i + 1) * max step 1 := by
            ring
          rw [h1]
    · rw [windowsFromAux_stop _ _ _ _ _ hlt] at h
      simp at h


/-- With at least one word left, the loop visits at least one window and
the last visited window ends exactly at the end of the word sequence. -/
theorem windowsFromAux_getLast (size step n : Nat) :
    ∀ gas start : Nat, n - start ≤ gas → start < n → max step 1 ≤ size →
    ∃ h : windowsFromAux size step n gas start ≠ [],
      ((windowsFromAux size step n gas start).getLast h).2 = n := by
  intro gas
  induction gas with
  | zero => intro start hgas hlt _; omega
  | succ g ih =>
    intro start hgas hlt hstep
    by_cases hend : n ≤ start + size
    · rw [windowsFromAux_last _ _ _ _ _ hlt hend]
      exact ⟨by simp, rfl⟩
    · rw [windowsFromAux_cons _ _ _ _ _ hlt hend]
      obtain ⟨h1, h2⟩ := ih (start + max step 1) (by omega) (by omega) hstep
      refine ⟨by simp, ?_⟩
      rw [List.getLast_cons h1]
      exact h2

/-- Every window other than the last ends strictly before the end of the
word sequence: the loop breaks at the first end-reaching kept window. -/
theorem windowsFromAux_end_lt (size step n : Nat) :
    ∀ gas start i : Nat, i + 1 < (windowsFromAux size step n gas start).length →
    ∀ w : Nat × Nat, (windowsFromAux size step n gas start)[i]? = some w → w.2 < n := by
  intro gas
  induction gas with
  | zero =>
    intro start i h
    simp [windowsFromAux] at h
  | succ g ih =>
    intro start i h w hw
    by_cases hlt : start < n
    · by_cases hend : n ≤ start + size
      · rw [windowsFromAux_last _ _ _ _ _ hlt hend] at h
        simp at h
      · rw [windowsFromAux_cons _ _ _ _ _ hlt hend] at h hw
        match i with
        | 0 =>
          simp only [List.getElem?_cons_zero, Option.some.injEq] at hw
          subst hw
          omega
        | i + 1 =>
          simp only [List.length_cons, Nat.add_lt_add_iff_right] at h
          simp only [List.getElem?_cons_succ] at hw
          exact ih _ i h w hw
    · rw [windowsFromAux_stop _ _ _ _ _ hlt] at h
      simp at h

/-- Taking the first `step` words of every window (all words of the final
window) and concatenating reconstructs the word sequence from `start`. -/
theorem windowsFromAux_coverage (size step : Nat) (words : List String) :
    ∀ gas start : Nat, words.length - start ≤ gas → max step 1 ≤ size →
    ((windowsFromAux size step words.length gas start).map
        (fun w => if w.2 = words.length then sliceList words w.1 w.2
                  else (sliceList words w.1 w.2).take (max step 1))).flatten
      = sliceList words start words.length := by
  intro gas
  induction gas with
  | zero =>
    intro start hgas _
    rw [windowsFromAux_stop _ _ _ _ _ (by omega)]
    rw [sliceList_nil _ _ _ (by omega)]
    simp
  | succ g ih =>
    intro start hgas hstep
    by_cases hlt : start < words.length
    · by_cases hend : words.length ≤ start + size
      · rw [windowsFromAux_last _ _ _ _ _ hlt hend]
        simp
      · rw [windowsFromAux_cons _ _ _ _ _ hlt hend]
        simp only [List.map_cons, List.flatten_cons]
        rw [if_neg (by omega)]
        rw [sliceList_take, Nat.min_eq_left (by omega)]
        rw [ih (start + max step 1) (by omega) hstep]
        exact sliceList_append _ _ _ _ (by omega) (by omega)
    · rw [windowsFromAux_stop _ _ _ _ _ hlt]
      rw [sliceList_nil _ _ _ (by omega)]
      simp

/-- The loop produces at most one chunk per remaining word: it always
terminates with a finite chunk list. -/
theorem chunkFromAux_length (size step : Nat) (words : List String) :
    ∀ gas start : Nat,
    (chunkFromAux size step words gas start).length ≤ words.length - start := by
  intro gas
  induction gas with
  | zero => intro start; simp [chunkFromAux]
  | succ g ih =>
    intro start
    by_cases hlt : start < words.length
    · rw [chunkFromAux_succ _ _ _ _ _ hlt]
      have hih := ih (start + max step 1)
      split
      · omega
      · split
        · simp only [List.length_singleton]
          omega
        · simp only [List.length_cons]
          omega
    · rw [chunkFromAux_stop _ _ _ _ _ hlt]
      simp

/-! ## Facts about the effective size, overlap and step -/

theorem effSize_pos (cs : Int) : 1 ≤ effSize cs := by
  simp only [effSize]; omega

theorem effStep_pos (cs co : Int) : 1 ≤ effStep cs co := by
  simp only [effStep]; omega

theorem effStep_le_effSize (cs co : Int) : effStep cs co ≤ effSize cs := by
  simp only [effStep, effSize]; omega

theorem effOverlap_le (cs co : Int) : effOverlap cs co ≤ effSize cs - 1 := by
  simp only [effOverlap, effSize]; omega

theorem effStep_eq (cs co : Int) :
    effStep cs co = max (effSize cs - effOverlap cs co) 1 := by
  simp only [effStep, effSize, effOverlap]; omega

/-- In the documented regime `1 ≤ overlap < size` no clamping happens. -/
theorem eff_of_valid (S O : Nat) (h1 : 1 ≤ O) (h2 : O < S) :
    effSize (S : Int) = S ∧ effOverlap (S : Int) (O : Int) = O ∧
      effStep (S : Int) (O : Int) = S - O := by
  refine ⟨?_, ?_, ?_⟩ <;> · simp only [effSize, effOverlap, effStep]; omega

/-- `_chunk_text` is the window loop run on the effective parameters. -/
theorem chunk_text_eq (cs co : Int) (text : String) :
    chunk_text cs co text =
      if findWords text = [] then []
      else chunkFrom (effSize cs) (effStep cs co) (findWords text) 0 := rfl

/-! ## String toolkit: strip, join, word-splitting round trip -/

theorem dropWhile_eq_self_of_head {α : Type} (p : α → Bool) (l : List α)
    (h : ∀ c ∈ l.head?, p c = false) : l.dropWhile p = l := by
  cases l with
  | nil => rfl
  | cons c cs =>
    have hc := h c rfl
    simp [List.dropWhile_cons, hc]

theorem head?_dropWhile_not {α : Type} (p : α → Bool) (l : List α) :
    ∀ c ∈ (l.dropWhile p).head?, p c = false := by
  induction l with
  | nil => intro c hc; simp at hc
  | cons a l ih =>
    intro c hc
    by_cases ha : p a
    · rw [List.dropWhile_cons_of_pos ha] at hc
      exact ih c hc
    · rw [List.dropWhile_cons_of_neg ha] at hc
      simp only [List.head?_cons, Option.mem_def, Option.some.injEq] at hc
      subst hc
      simpa using ha

theorem getLast?_of_suffix {α : Type} {l₁ l₂ : List α}
    (h : l₁ <:+ l₂) (hne : l₁ ≠ []) : l₂.getLast? = l₁.getLast? := by
  obtain ⟨pre, rfl⟩ := h
  rw [List.getLast?_append]
  cases hl : l₁.getLast? with
  | none =>
    rw [List.getLast?_eq_none_iff] at hl
    exact absurd hl hne
  | some a => rfl

/-- Stripping does nothing when both ends are already non-whitespace. -/
theorem pyStripChars_eq_self (cs : List Char)
    (h1 : ∀ c ∈ cs.head?, isPyWs c = false)
    (h2 : ∀ c ∈ cs.getLast?, isPyWs c = false) : pyStripChars cs = cs := by
  unfold pyStripChars
  rw [dropWhile_eq_self_of_head _ _ h1]
  rw [dropWhile_eq_self_of_head _ _ (by simpa using h2)]
  simp

/-- The first character of a stripped string is non-whitespace. -/
theorem pyStripChars_head (cs : List Char) :
    ∀ c ∈ (pyStripChars cs).head?, isPyWs c = false := by
  intro c hc
  unfold pyStripChars at hc
  rw [List.head?_reverse] at hc
  rcases h0 : (List.dropWhile isPyWs cs).reverse.dropWhile isPyWs with _ | ⟨a, l⟩
  · rw [h0] at hc; simp at hc
  · rw [h0] at hc
    have hsuf : a :: l <:+ (List.dropWhile isPyWs cs).reverse :=
      h0 ▸ List.dropWhile_suffix isPyWs
    have hX := getLast?_of_suffix hsuf (by simp)
    rw [← hX, List.getLast?_reverse] at hc
    exact head?_dropWhile_not isPyWs cs c hc

/-- The last character of a stripped string is non-whitespace. -/
theorem pyStripChars_getLast (cs : List Char) :
    ∀ c ∈ (pyStripChars cs).getLast?, isPyWs c = false := by
  intro c hc
  unfold pyStripChars at hc
  rw [List.getLast?_reverse] at hc
  exact head?_dropWhile_not isPyWs _ c hc

theorem pyStripChars_idem (cs : List Char) :
    pyStripChars (pyStripChars cs) = pyStripChars cs :=
  pyStripChars_eq_self _ (pyStripChars_head cs) (pyStripChars_getLast cs)

/-- Processing a whitespace-free run prepends it (reversed) to the
accumulator. -/
theorem findWordsAux_run (w : List Char) :
    ∀ acc cs : List Char, (∀ c ∈ w, isPyWs c = false) →
    findWordsAux acc (w ++ cs) = findWordsAux (w.reverse ++ acc) cs := by
  induction w with
  | nil => intro acc cs _; simp
  | cons a w ih =>
    intro acc cs h
    have ha : isPyWs a = false := h a (by simp)
    simp only [List.cons_append, findWordsAux, ha, Bool.false_eq_true, if_false,
      List.append_eq]
    rw [ih (a :: acc) cs (fun c hc => h c (by simp [hc]))]
    simp [List.append_assoc]

/-- `re.findall(r"\S+", ...)` recovers the words from a
single-space-joined list of nonempty whitespace-free words. -/
theorem findWordsAux_join (ws : List (List Char))
    (hne : ∀ w ∈ ws, w ≠ [])
    (hws : ∀ w ∈ ws, ∀ c ∈ w, isPyWs c = false) :
    findWordsAux [] ((pyJoin " " (ws.map String.mk)).data) = ws := by
  induction ws with
  | nil => simp [pyJoin, findWordsAux]
  | cons w ws ih =>
    cases ws with
    | nil =>
      have hw := hne w (by simp)
      simp only [List.map_cons, List.map_nil, pyJoin]
      have h' := findWordsAux_run w [] [] (hws w (by simp))
      simp only [List.append_nil] at h'
      rw [h']
      simp only [findWordsAux, List.append_nil]
      rw [if_neg (by simpa using hw)]
      simp
    | cons y ys =>
      have hw := hne w (by simp)
      simp only [List.map_cons, pyJoin]
      have hdata : (String.mk w ++ " " ++ pyJoin " " (String.mk y :: ys.map String.mk)).data
          = w ++ (' ' :: (pyJoin " " (String.mk y :: ys.map String.mk)).data) := by
        simp [String.data_append]
      rw [hdata]
      rw [findWordsAux_run w _ _ (hws w (by simp))]
      simp only [List.append_nil, findWordsAux]
      rw [if_pos (show isPyWs ' ' = true from rfl)]
      rw [if_neg (by simpa using hw)]
      simp only [List.reverse_reverse]
      have hys : findWordsAux [] ((pyJoin " " ((y :: ys).map String.mk)).data) = y :: ys :=
        ih (fun v hv => hne v (by simp [hv])) (fun v hv => hws v (by simp [hv]))
      simp only [List.map_cons] at hys
      rw [hys]

/-- String-level word/join round trip. -/
theorem findWords_pyJoin (ws : List String)
    (hne : ∀ w ∈ ws, w ≠ "")
    (hws : ∀ w ∈ ws, ∀ c ∈ w.data, isPyWs c = false) :
    findWords (pyJoin " " ws) = ws := by
  have hws' : ws = (ws.map String.data).map String.mk := by
    rw [List.map_map]
    exact (List.map_id'' (fun _ => rfl) ws).symm
  rw [findWords, hws']
  rw [findWordsAux_join (ws.map String.data) ?h1 ?h2]
  case h1 =>
    intro w hw
    obtain ⟨s, hs, rfl⟩ := List.mem_map.mp hw
    intro hd
    exact hne s hs (String.ext hd)
  case h2 =>
    intro w hw
    obtain ⟨s, hs, rfl⟩ := List.mem_map.mp hw
    exact hws s hs

/-- A space-join of `k+1` copies of `"w"` starts and ends with `'w'`. -/
theorem pyJoin_repw (k : Nat) :
    (pyJoin " " (List.replicate (k + 1) "w")).data.head? = some 'w' ∧
    (pyJoin " " (List.replicate (k + 1) "w")).data.getLast? = some 'w' := by
  induction k with
  | zero => exact ⟨rfl, rfl⟩
  | succ k ih =>
    have hrep : List.replicate (k + 2) "w" = "w" :: List.replicate (k + 1) "w" := rfl
    rw [hrep]
    have hjoin : pyJoin " " ("w" :: List.replicate (k + 1) "w") =
        "w" ++ " " ++ pyJoin " " (List.replicate (k + 1) "w") := by
      cases hk : List.replicate (k + 1) "w" with
      | nil => simp at hk
      | cons a l => rfl
    rw [hjoin]
    have hdata : ("w" ++ " " ++ pyJoin " " (List.replicate (k + 1) "w")).data =
        'w' :: ' ' :: (pyJoin " " (List.replicate (k + 1) "w")).data := by
      simp [String.data_append]
    constructor
    · rw [hdata]; rfl
    · rw [hdata]
      have hne : (pyJoin " " (List.replicate (k + 1) "w")).data ≠ [] := by
        intro h
        rw [h] at ih
        simp at ih
      rw [show ('w' :: ' ' :: (pyJoin " " (List.replicate (k + 1) "w")).data)
            = ['w', ' '] ++ (pyJoin " " (List.replicate (k + 1) "w")).data from rfl]
      rw [List.getLast?_append]
      rw [ih.2]
      rfl

/-- Windows over a run of `"w"` words are kept, and their text is the
plain space-join of the window words. -/
theorem windowText_repw (n a b : Nat) (h1 : a < b) (h2 : b ≤ n) :
    windowText (List.replicate n "w") (a, b) = pyJoin " " (List.replicate (b - a) "w") ∧
    badWindow (List.replicate n "w") (a, b) = false := by
  have hslice : sliceList (List.replicate n "w") a b = List.replicate (b - a) "w" := by
    rw [sliceList, List.drop_replicate, List.take_replicate]
    congr 1
    omega
  obtain ⟨k, hk⟩ : ∃ k, b - a = k + 1 := ⟨b - a - 1, by omega⟩
  have hj := pyJoin_repw k
  have htext : windowText (List.replicate n "w") (a, b) =
      pyJoin " " (List.replicate (b - a) "w") := by
    rw [windowText, hslice, hk, pyStrip]
    rw [pyStripChars_eq_self _ ?hh ?hl]
    case hh =>
      intro c hc
      rw [hj.1] at hc
      simp only [Option.mem_def, Option.some.injEq] at hc
      subst hc
      rfl
    case hl =>
      intro c hc
      rw [hj.2] at hc
      simp only [Option.mem_def, Option.some.injEq] at hc
      subst hc
      rfl
  refine ⟨htext, ?_⟩
  have hhead : (windowText (List.replicate n "w") (a, b)).data.head? = some 'w' := by
    rw [htext, hk]
    exact hj.1
  have hne : windowText (List.replicate n "w") (a, b) ≠ "" := by
    intro h
    rw [h] at hhead
    simp at hhead
  have hmem : windowText (List.replicate n "w") (a, b) ∉ specialChunks := by
    intro h
    simp only [specialChunks, List.mem_cons, List.not_mem_nil, or_false] at h
    rcases h with h | h | h <;> · rw [h] at hhead; simp at hhead
  simp [badWindow, hne, hmem]

theorem sliceList_replicate {α : Type} (x : α) (n a b : Nat) (h : b ≤ n) :
    sliceList (List.replicate n x) a b = List.replicate (b - a) x := by
  rw [sliceList, List.drop_replicate, List.take_replicate]
  congr 1
  omega

/-- Every visited window starts inside the word sequence and ends `size`
words later, clipped to the end. -/
theorem windowsFromAux_mem (size step n : Nat) :
    ∀ gas start : Nat, ∀ w : Nat × Nat, w ∈ windowsFromAux size step n gas start →
    w.1 < n ∧ w.2 = min (w.1 + size) n := by
  intro gas
  induction gas with
  | zero => intro start w hw; simp [windowsFromAux] at hw
  | succ g ih =>
    intro start w hw
    by_cases hlt : start < n
    · by_cases hend : n ≤ start + size
      · rw [windowsFromAux_last _ _ _ _ _ hlt hend] at hw
        rw [List.mem_singleton] at hw
        subst hw
        exact ⟨hlt, (Nat.min_eq_right hend).symm⟩
      · rw [windowsFromAux_cons _ _ _ _ _ hlt hend] at hw
        rcases List.mem_cons.mp hw with hw | hw
        · subst hw
          exact ⟨hlt, (Nat.min_eq_left (by omega)).symm⟩
        · exact ih _ w hw
    · rw [windowsFromAux_stop _ _ _ _ _ hlt] at hw
      simp at hw

/-! ## Claim C2 -/

/-- C2 counterexample: on the section text `"[SEP]"` the loop visits
exactly one window, covering word `[0:1]` with text `"[SEP]"`, yet
`_chunk_text` discards it as a placeholder artifact and returns no
chunk at all — so chunking does not always turn every visited window
into a chunk as the claim states. -/
theorem C2_counterexample :
    chunk_text 500 100 "[SEP]" = [] ∧
    findWords "[SEP]" = ["[SEP]"] ∧
    windowsFrom (effSize 500) (effStep 500 100) (findWords "[SEP]").length 0 = [(0, 1)] ∧
    windowText (findWords "[SEP]") (0, 1) = "[SEP]" := by
  refine ⟨by decide, by decide, by decide, by decide⟩

/-- C2 (amended): for every section text whose visited windows are all
kept (none is empty or a placeholder artifact `[CLS]`/`[SEP]`), chunking
returns exactly the texts of the windows starting at word indices
`0, step, 2*step, ...` (`step = size - overlap`, minimum 1, after
clamping), each window extending `size` words (clipped to the end); the
last window reaches the end of the word sequence and every earlier
window stops short of it, so there is no past-the-end duplicate window.
In particular `chunk_size=500, overlap=100` on a single 1200-word
section yields exactly the 3 chunks covering words `[0:500]`,
`[400:900]`, `[800:1200]`. -/
theorem C2_amended :
    (∀ cs co : Int, ∀ text : String,
      findWords text ≠ [] →
      (∀ w ∈ windowsFrom (effSize cs) (effStep cs co) (findWords text).length 0,
        badWindow (findWords text) w = false) →
      chunk_text cs co text =
        (windowsFrom (effSize cs) (effStep cs co) (findWords text).length 0).map
          (windowText (findWords text)) ∧
      (∀ i : Nat,
        i < (windowsFrom (effSize cs) (effStep cs co) (findWords text).length 0).length →
        (windowsFrom (effSize cs) (effStep cs co) (findWords text).length 0)[i]? =
          some (i * effStep cs co,
            min (i * effStep cs co + effSize cs) (findWords text).length)) ∧
      (∃ hne : windowsFrom (effSize cs) (effStep cs co) (findWords text).length 0 ≠ [],
        ((windowsFrom (effSize cs) (effStep cs co) (findWords text).length 0).getLast hne).2 =
          (findWords text).length) ∧
      (∀ i : Nat,
        i + 1 < (windowsFrom (effSize cs) (effStep cs co) (findWords text).length 0).length →
        ∀ w : Nat × Nat,
          (windowsFrom (effSize cs) (effStep cs co) (findWords text).length 0)[i]? = some w →
          w.2 < (findWords text).length)) ∧
    chunk_text 500 100 (pyJoin " " (List.replicate 1200 "w")) =
      [pyJoin " " (sliceList (List.replicate 1200 "w") 0 500),
       pyJoin " " (sliceList (List.replicate 1200 "w") 400 900),
       pyJoin " " (sliceList (List.replicate 1200 "w") 800 1200)] := by
  constructor
  · intro cs co text hne hgood
    have hstep1 : max (effStep cs co) 1 = effStep cs co :=
      Nat.max_eq_left (effStep_pos cs co)
    have hnpos : 0 < (findWords text).length := List.length_pos.mpr hne
    refine ⟨?_, ?_, ?_, ?_⟩
    · rw [chunk_text_eq, if_neg hne, chunkFrom, windowsFrom]
      exact chunkFromAux_eq_map _ _ _ _ _ (by rw [← windowsFrom]; exact hgood)
    · intro i hi
      rw [windowsFrom] at hi ⊢
      rw [windowsFromAux_get _ _ _ _ _ (le_refl _) i hi]
      rw [hstep1, Nat.zero_add]
    · rw [windowsFrom, Nat.sub_zero]
      obtain ⟨h1, h2⟩ := windowsFromAux_getLast (effSize cs) (effStep cs co)
        (findWords text).length (findWords text).length 0 (by omega) hnpos
        (by rw [hstep1]; exact effStep_le_effSize cs co)
      exact ⟨h1, h2⟩
    · intro i hi w hw
      rw [windowsFrom] at hi hw
      exact windowsFromAux_end_lt _ _ _ _ _ i hi w hw
  · have hwords : findWords (pyJoin " " (List.replicate 1200 "w")) =
        List.replicate 1200 "w" := by
      apply findWords_pyJoin
      · intro w hw
        rw [List.mem_replicate] at hw
        rw [hw.2]
        decide
      · intro w hw
        rw [List.mem_replicate] at hw
        rw [hw.2]
        decide
    have hne : findWords (pyJoin " " (List.replicate 1200 "w")) ≠ [] := by
      rw [hwords]; decide
    have hlen : (List.replicate 1200 ("w" : String)).length = 1200 :=
      List.length_replicate ..
    have hwin : windowsFromAux (effSize 500) (effStep 500 100) 1200 1200 0 =
        [(0, 500), (400, 900), (800, 1200)] := by decide
    have hgood : ∀ w ∈ windowsFromAux (effSize 500) (effStep 500 100)
        (List.replicate 1200 ("w" : String)).length 1200 0,
        badWindow (List.replicate 1200 "w") w = false := by
      rw [hlen, hwin]
      intro w hw
      simp only [List.mem_cons, List.not_mem_nil, or_false] at hw
      rcases hw with hw | hw | hw <;>
        · subst hw
          exact (windowText_repw 1200 _ _ (by omega) (by omega)).2
    rw [chunk_text_eq, if_neg hne, hwords, chunkFrom]
    simp only [List.length_replicate, Nat.sub_zero]
    rw [chunkFromAux_eq_map _ _ _ 1200 0 hgood]
    rw [hlen, hwin]
    simp only [List.map_cons, List.map_nil]
    rw [(windowText_repw 1200 0 500 (by omega) (by omega)).1]
    rw [(windowText_repw 1200 400 900 (by omega) (by omega)).1]
    rw [(windowText_repw 1200 800 1200 (by omega) (by omega)).1]
    rw [sliceList_replicate _ _ _ _ (by omega : (500:Nat) ≤ 1200)]
    rw [sliceList_replicate _ _ _ _ (by omega : (900:Nat) ≤ 1200)]
    rw [sliceList_replicate _ _ _ _ (by omega : (1200:Nat) ≤ 1200)]

/-- C2 witness: the amended general statement evaluated on a concrete
5-word section with size 3 and overlap 1. -/
theorem C2_witness :
    chunk_text 3 1 "a b c d e" = ["a b c", "c d e"] := by
  have h := (C2_amended.1 3 1 "a b c d e" (by decide) (by decide)).1
  exact h.trans (by decide)

theorem sliceList_self {α : Type} (l : List α) :
    sliceList l 0 l.length = l := by
  simp [sliceList]

/-! ## Claim C3 -/

/-- C3 counterexample: with `S=2, O=1` on `"[CLS] [SEP] x"` the first
window `[CLS] [SEP]` is discarded as a placeholder artifact, so the
produced chunks do not reconstruct the original word sequence — the
word `[CLS]` is lost, violating the claimed no-gap coverage. -/
theorem C3_counterexample :
    chunk_text 2 1 "[CLS] [SEP] x" = ["[SEP] x"] ∧
    ((chunk_text 2 1 "[CLS] [SEP] x").map findWords).flatten ≠
      findWords "[CLS] [SEP] x" := by
  refine ⟨by decide, by decide⟩

/-- C3 (amended): for `1 ≤ O < S` and `step = S - O`, over any section's
word sequence: every visited window holds at most `S` words, each pair
of consecutive windows overlaps in exactly `O` word positions (the last
`O` words of a window are the first `O` words of the next), and
concatenating every window's first `step` words — the final window
contributing all of its words — reconstructs the word sequence exactly.
Provided additionally that no window text is empty or a placeholder
artifact, the produced chunks are exactly these windows' texts. -/
theorem C3_amended :
    ∀ (S O : Nat) (text : String), 1 ≤ O → O < S →
    (∀ w ∈ windowsFrom S (S - O) (findWords text).length 0,
      (sliceList (findWords text) w.1 w.2).length ≤ S) ∧
    (∀ i : Nat, ∀ w w' : Nat × Nat,
      (windowsFrom S (S - O) (findWords text).length 0)[i]? = some w →
      (windowsFrom S (S - O) (findWords text).length 0)[i + 1]? = some w' →
      (sliceList (findWords text) w.1 w.2).drop (S - O) =
        (sliceList (findWords text) w'.1 w'.2).take O ∧
      ((sliceList (findWords text) w.1 w.2).drop (S - O)).length = O) ∧
    ((windowsFrom S (S - O) (findWords text).length 0).map
        (fun w => if w.2 = (findWords text).length then sliceList (findWords text) w.1 w.2
                  else (sliceList (findWords text) w.1 w.2).take (S - O))).flatten =
      findWords text ∧
    ((∀ w ∈ windowsFrom S (S - O) (findWords text).length 0,
        badWindow (findWords text) w = false) →
      findWords text ≠ [] →
      chunk_text (S : Int) (O : Int) text =
        (windowsFrom S (S - O) (findWords text).length 0).map
          (windowText (findWords text))) := by
  intro S O text hO hOS
  have hstep1 : max (S - O) 1 = S - O := Nat.max_eq_left (by omega)
  have hstepS : max (S - O) 1 ≤ S := by omega
  refine ⟨?_, ?_, ?_, ?_⟩
  · intro w hw
    rw [windowsFrom] at hw
    obtain ⟨h1, h2⟩ := windowsFromAux_mem _ _ _ _ _ w hw
    rw [sliceList_length]
    omega
  · intro i w w' hw hw'
    rw [windowsFrom, Nat.sub_zero] at hw hw'
    have hiw' : i + 1 < (windowsFromAux S (S - O) (findWords text).length
        (findWords text).length 0).length := by
      by_contra hcon
      rw [List.getElem?_eq_none (by omega)] at hw'
      exact Option.noConfusion hw'
    have hiw : i < (windowsFromAux S (S - O) (findWords text).length
        (findWords text).length 0).length := by omega
    have hg := windowsFromAux_get S (S - O) (findWords text).length
      (findWords text).length 0 (by omega) i hiw
    have hg' := windowsFromAux_get S (S - O) (findWords text).length
      (findWords text).length 0 (by omega) (i + 1) hiw'
    rw [hw] at hg
    rw [hw'] at hg'
    have hlt := windowsFromAux_end_lt S (S - O) (findWords text).length
      (findWords text).length 0 i hiw' w hw
    rw [hstep1] at hg hg'
    have hweq := Option.some.inj hg
    have hweq' := Option.some.inj hg'
    have hsucc : (i + 1) * (S - O) = i * (S - O) + (S - O) := Nat.succ_mul ..
    have hmin : w.2 = min (0 + i * (S - O) + S) (findWords text).length := by
      rw [hweq]
    have hfull : 0 + i * (S - O) + S < (findWords text).length := by
      rw [hmin] at hlt
      omega
    have hw1 : w.1 = i * (S - O) := by
      rw [hweq]
      show 0 + i * (S - O) = i * (S - O)
      omega
    have hw2 : w.2 = i * (S - O) + S := by
      rw [hweq]
      show min (0 + i * (S - O) + S) (findWords text).length = i * (S - O) + S
      omega
    have hw1' : w'.1 = i * (S - O) + (S - O) := by
      rw [hweq']
      show 0 + (i + 1) * (S - O) = i * (S - O) + (S - O)
      rw [hsucc]
      omega
    have hw2' : w'.2 = min ((i * (S - O) + (S - O)) + S) (findWords text).length := by
      rw [hweq']
      show min (0 + (i + 1) * (S - O) + S) (findWords text).length = _
      rw [hsucc]
      congr 1
      omega
    rw [hw1, hw2, hw1', hw2', sliceList_drop, sliceList_take]
    constructor
    · congr 1
      omega
    · rw [sliceList_length]
      omega
  · rw [windowsFrom, Nat.sub_zero]
    have hcov := windowsFromAux_coverage S (S - O) (findWords text)
      (findWords text).length 0 (by omega) hstepS
    rw [hstep1] at hcov
    rw [hcov]
    exact sliceList_self _
  · intro hgood hne
    have heff := eff_of_valid S O hO hOS
    rw [chunk_text_eq, if_neg hne, chunkFrom, heff.1, heff.2.2, windowsFrom]
    apply chunkFromAux_eq_map
    rw [← windowsFrom]
    exact hgood

/-- C3 witness: the amended statement evaluated on a concrete 5-word
section with `S=3, O=1`: the windows' contributions reconstruct the
word sequence. -/
theorem C3_witness :
    ((windowsFrom 3 (3 - 1) (findWords "a b c d e").length 0).map
        (fun w => if w.2 = (findWords "a b c d e").length
                  then sliceList (findWords "a b c d e") w.1 w.2
                  else (sliceList (findWords "a b c d e") w.1 w.2).take (3 - 1))).flatten =
      findWords "a b c d e" :=
  (C3_amended 3 1 "a b c d e" (by decide) (by decide)).2.2.1

/-! ## Claim C10 -/

/-- C10: `_chunk_text` is total for any `chunk_size ≥ 1` and arbitrary
(even negative) `chunk_overlap`: the effective overlap is clamped into
`[0, size-1]`, the step is at least 1, and for every input text the
window loop terminates returning a (possibly empty) list of at most one
chunk per word. -/
theorem C10_total :
    ∀ (cs co : Int) (text : String), 1 ≤ cs →
    effSize cs = cs.toNat ∧
    effOverlap cs co ≤ effSize cs - 1 ∧
    (co < 0 → effOverlap cs co = 0) ∧
    (0 ≤ co → effOverlap cs co = min co.toNat (cs.toNat - 1)) ∧
    1 ≤ effStep cs co ∧
    effStep cs co = max (effSize cs - effOverlap cs co) 1 ∧
    (chunk_text cs co text).length ≤ (findWords text).length := by
  intro cs co text hcs
  refine ⟨?_, effOverlap_le cs co, ?_, ?_, effStep_pos cs co, effStep_eq cs co, ?_⟩
  · simp only [effSize]; omega
  · intro h; simp only [effOverlap]; omega
  · intro h; simp only [effOverlap]; omega
  · rw [chunk_text_eq]
    split
    · simp
    · rw [chunkFrom]
      have hlen := chunkFromAux_length (effSize cs) (effStep cs co) (findWords text)
        ((findWords text).length - 0) 0
      omega

/-- C10 witness: a negative overlap is clamped to 0, giving step = size,
on a concrete two-word text. -/
theorem C10_witness :
    effStep 500 (-7) = 500 ∧ 1 ≤ effStep 500 (-7) ∧
    (chunk_text 500 (-7) "a b").length ≤ (findWords "a b").length :=
  ⟨by decide, (C10_total 500 (-7) "a b" (by decide)).2.2.2.2.1,
   (C10_total 500 (-7) "a b" (by decide)).2.2.2.2.2.2⟩

/-! ## Claim C7 -/

theorem enum_map_fst_apply {α β : Type} (f : Nat → β) (l : List α) :
    l.enum.map (fun ip => f ip.1) = (List.range l.length).map f := by
  conv_rhs => rw [← List.enum_map_fst l]
  rw [List.map_map]
  rfl

/-- The chunk id assigned at output position `j` is always
`counter + j + 1`: the running counter equals the global position and is
never reset at a section boundary; the chunk texts follow section
order, then in-section window order. -/
theorem chunkPagesAux_spec (cs co : Int) (src m : String) :
    ∀ (pages : List (String × String)) (counter : Nat),
    (chunkPagesAux cs co src m counter pages).map (fun d => d.metadata.chunk_id) =
      (List.range (chunkPagesAux cs co src m counter pages).length).map
        (fun j => chunkId (counter + j + 1)) ∧
    (chunkPagesAux cs co src m counter pages).map (fun d => d.page_content) =
      (pages.map (fun p => chunk_text cs co p.2)).flatten := by
  intro pages
  induction pages with
  | nil => intro counter; simp [chunkPagesAux]
  | cons page rest ih =>
    intro counter
    obtain ⟨sec_id, text⟩ := page
    obtain ⟨ih1, ih2⟩ := ih (counter + (chunk_text cs co text).length)
    constructor
    · simp only [chunkPagesAux, List.map_append, List.map_map, List.length_append,
        List.length_map, List.enum_length]
      rw [ih1, List.range_add, List.map_append, List.map_map]
      congr 1
      · exact enum_map_fst_apply (fun j => chunkId (counter + j + 1)) _
      · apply List.map_congr_left
        intro j _
        dsimp only [Function.comp]
        congr 1
        omega
    · simp only [chunkPagesAux, List.map_append, List.map_map, List.map_cons,
        List.flatten_cons]
      rw [ih2]
      congr 1
      exact List.enum_map_snd (chunk_text cs co text)

/-- C7: chunk ids come from a single running counter over the whole
document (never reset at section boundaries): the id at output position
`j` is the zero-padded ordinal `chunk-<j+1>` — hence strictly
increasing along the output — and the chunk texts are the sections'
window chunks in section order, then in-section window order. -/
theorem C7_chunk_ids (cs co : Int) (pages : List (String × String)) (src m : String) :
    (chunk_pages cs co pages src m).map (fun d => d.metadata.chunk_id) =
      (List.range (chunk_pages cs co pages src m).length).map
        (fun j => chunkId (j + 1)) ∧
    (chunk_pages cs co pages src m).map (fun d => d.page_content) =
      (pages.map (fun p => chunk_text cs co p.2)).flatten := by
  obtain ⟨h1, h2⟩ := chunkPagesAux_spec cs co src m pages 0
  refine ⟨?_, h2⟩
  rw [chunk_pages, h1]
  apply List.map_congr_left
  intro j _
  congr 1
  omega

/-! ## Claim C1 -/

theorem pyMinBy_mem {α : Type} (f : α → ℚ) :
    ∀ (rest : List α) (best : α),
    pyMinBy f best rest = best ∨ pyMinBy f best rest ∈ rest := by
  intro rest
  induction rest with
  | nil => intro best; exact Or.inl rfl
  | cons a rest ih =>
    intro best
    simp only [pyMinBy]
    rcases ih (if f a < f best then a else best) with h | h
    · rw [h]
      split
      · exact Or.inr (by simp)
      · exact Or.inl rfl
    · exact Or.inr (List.mem_cons_of_mem _ h)

theorem pyMinBy_le {α : Type} (f : α → ℚ) :
    ∀ (rest : List α) (best : α),
    f (pyMinBy f best rest) ≤ f best ∧
    ∀ p ∈ rest, f (pyMinBy f best rest) ≤ f p := by
  intro rest
  induction rest with
  | nil => intro best; exact ⟨le_refl _, by simp⟩
  | cons a rest ih =>
    intro best
    simp only [pyMinBy]
    obtain ⟨ih1, ih2⟩ := ih (if f a < f best then a else best)
    have hstep : f (if f a < f best then a else best) ≤ f best ∧
        f (if f a < f best then a else best) ≤ f a := by
      split <;> constructor <;> first | exact le_refl _ | linarith
    refine ⟨le_trans ih1 hstep.1, ?_⟩
    intro p hp
    rcases List.mem_cons.mp hp with hp | hp
    · subst hp
      exact le_trans ih1 hstep.2
    · exact ih2 p hp

/-- C1: whenever the query is within the token limit and the index
search returns a non-empty result list all of whose distances exceed the
threshold, `retrieve` returns `ok` with exactly one pair — a pair of the
search results attaining the minimum distance; and for any non-empty
search result within the token limit, a successful `retrieve` never
returns an empty list. -/
theorem C1_fallback :
    (∀ (cfg : RAGConfig) (countTokens : String → Nat) (threshold : ℚ)
       (x : Document × ℚ) (xs : List (Document × ℚ)) (query : String),
      countTokens query ≤ cfg.max_query_tokens →
      (∀ p ∈ x :: xs, threshold < p.2) →
      ∃ best : Document × ℚ,
        retrieve cfg countTokens threshold (x :: xs) query = .ok [best] ∧
        best ∈ x :: xs ∧ ∀ p ∈ x :: xs, best.2 ≤ p.2) ∧
    (∀ (cfg : RAGConfig) (countTokens : String → Nat) (threshold : ℚ)
       (x : Document × ℚ) (xs : List (Document × ℚ)) (query : String)
       (l : List (Document × ℚ)),
      countTokens query ≤ cfg.max_query_tokens →
      retrieve cfg countTokens threshold (x :: xs) query = .ok l → l ≠ []) := by
  constructor
  · intro cfg countTokens threshold x xs query htok hall
    have hfil : (x :: xs).filter (fun p => p.2 ≤ threshold) = [] := by
      rw [List.filter_eq_nil_iff]
      intro p hp
      simp only [decide_eq_true_eq, not_le]
      exact hall p hp
    refine ⟨pyMinBy (fun p => p.2) x xs, ?_, ?_, ?_⟩
    · rw [retrieve, if_neg (by omega), if_neg (by simp), hfil, if_pos rfl]
    · rcases pyMinBy_mem (fun p => p.2) xs x with h | h
      · rw [h]; exact List.mem_cons_self _ _
      · exact List.mem_cons_of_mem _ h
    · obtain ⟨h1, h2⟩ := pyMinBy_le (fun p => p.2) xs x
      intro p hp
      rcases List.mem_cons.mp hp with hp | hp
      · subst hp; exact h1
      · exact h2 p hp
  · intro cfg countTokens threshold x xs query l htok hret
    rw [retrieve, if_neg (by omega), if_neg (by simp)] at hret
    by_cases hfil : (x :: xs).filter (fun p => p.2 ≤ threshold) = []
    · rw [hfil, if_pos rfl] at hret
      have : l = [pyMinBy (fun p => p.2) x xs] := by
        injection hret with h
        exact h.symm
      rw [this]
      simp
    · rw [if_neg hfil] at hret
      have : l = (x :: xs).filter (fun p => p.2 ≤ threshold) := by
        injection hret with h
        exact h.symm
      rw [this]
      exact hfil

/-- C1 witness: two search results at distances 3 and 2 against
threshold 1 — both above the threshold — yield exactly the single
closest pair. -/
theorem C1_witness :
    ∃ best : Document × ℚ,
      retrieve { top_k := 4, max_distance := 1, max_query_tokens := 512,
                 max_context_tokens := 2000, max_output_tokens := 512 }
        (fun _ => 3) 1
        ([({ page_content := "alpha",
             metadata := { chunk_id := "chunk-00001", section_or_page := "page-1",
                           source_file := "f.pdf", parsing_method := "deterministic" } }, 3),
          ({ page_content := "beta",
             metadata := { chunk_id := "chunk-00002", section_or_page := "page-2",
                           source_file := "f.pdf", parsing_method := "deterministic" } }, 2)] :
          List (Document × ℚ))
        "q" = .ok [best] ∧
      best ∈
        ([({ page_content := "alpha",
             metadata := { chunk_id := "chunk-00001", section_or_page := "page-1",
                           source_file := "f.pdf", parsing_method := "deterministic" } }, 3),
          ({ page_content := "beta",
             metadata := { chunk_id := "chunk-00002", section_or_page := "page-2",
                           source_file := "f.pdf", parsing_method := "deterministic" } }, 2)] :
          List (Document × ℚ)) ∧
      ∀ p ∈
        ([({ page_content := "alpha",
             metadata := { chunk_id := "chunk-00001", section_or_page := "page-1",
                           source_file := "f.pdf", parsing_method := "deterministic" } }, 3),
          ({ page_content := "beta",
             metadata := { chunk_id := "chunk-00002", section_or_page := "page-2",
                           source_file := "f.pdf", parsing_method := "deterministic" } }, 2)] :
          List (Document × ℚ)),
        best.2 ≤ p.2 :=
  C1_fallback.1 _ _ _ _ _ _ (by decide) (by decide)

/-! ## Claim C4 -/

/-- The packing loop keeps a prefix: starting from a running total
within the budget, the included segments are exactly the longest prefix
whose cumulative token count fits, and nothing after the first
over-budget segment is considered. -/
theorem buildContextAux_spec (tok : String → Nat) (fmtScore : ℚ → String) (maxCtx : Nat) :
    ∀ (docs : List (Document × ℚ)) (total : Nat), total ≤ maxCtx →
    ∃ k : Nat, k ≤ docs.length ∧
      (buildContextAux tok fmtScore maxCtx total docs).1 =
        (docs.take k).map (mkSegment fmtScore) ∧
      (buildContextAux tok fmtScore maxCtx total docs).2 =
        (docs.take k).map mkCitation ∧
      total + (((docs.take k).map (mkSegment fmtScore)).map tok).sum ≤ maxCtx ∧
      (k < docs.length →
        maxCtx < total + (((docs.take (k + 1)).map (mkSegment fmtScore)).map tok).sum) := by
  intro docs
  induction docs with
  | nil =>
    intro total htotal
    exact ⟨0, by simp [buildContextAux], by simp [buildContextAux], by simp [buildContextAux],
      by simpa using htotal, by simp⟩
  | cons p rest ih =>
    intro total htotal
    by_cases hover : maxCtx < total + tok (mkSegment fmtScore p)
    · refine ⟨0, by simp, ?_, ?_, by simpa using htotal, ?_⟩
      · simp [buildContextAux, hover]
      · simp [buildContextAux, hover]
      · intro _
        simpa using hover
    · obtain ⟨k, hk, h1, h2, h3, h4⟩ := ih (total + tok (mkSegment fmtScore p)) (by omega)
      refine ⟨k + 1, by simpa using hk, ?_, ?_, ?_, ?_⟩
      · simp only [buildContextAux, if_neg hover, List.take_succ_cons, List.map_cons]
        rw [h1]
      · simp only [buildContextAux, if_neg hover, List.take_succ_cons, List.map_cons]
        rw [h2]
      · simp only [List.take_succ_cons, List.map_cons, List.sum_cons]
        omega
      · intro hlen
        simp only [List.length_cons, Nat.add_lt_add_iff_right] at hlen
        have := h4 hlen
        simp only [List.take_succ_cons, List.map_cons, List.sum_cons]
        omega

/-- C4: the context assembler includes a prefix of the ranked chunks
whose rendered segments' total token count never exceeds
`max_context_tokens`; packing stops at the first chunk that would
overflow the budget and no later-ranked chunk is included afterwards
(the included segments and citations are exactly those of the kept
prefix). -/
theorem C4_budget :
    ∀ (tok : String → Nat) (fmtScore : ℚ → String) (maxCtx : Nat)
      (docs : List (Document × ℚ)),
    ∃ k : Nat, k ≤ docs.length ∧
      build_context tok fmtScore maxCtx docs =
        (pyJoin "\n\n" ((docs.take k).map (mkSegment fmtScore)),
         (docs.take k).map mkCitation) ∧
      (((docs.take k).map (mkSegment fmtScore)).map tok).sum ≤ maxCtx ∧
      (k < docs.length →
        maxCtx < (((docs.take (k + 1)).map (mkSegment fmtScore)).map tok).sum) := by
  intro tok fmtScore maxCtx docs
  obtain ⟨k, hk, h1, h2, h3, h4⟩ := buildContextAux_spec tok fmtScore maxCtx docs 0 (by omega)
  refine ⟨k, hk, ?_, by omega, fun h => by have := h4 h; omega⟩
  rw [build_context]
  rw [h1, h2]

/-- C4 witness: with a budget of 5 tokens and a segment costing 3
tokens, the single chunk is packed and the assembled context is exactly
its rendered segment. -/
theorem C4_witness :
    build_context (fun _ => 3) (fun _ => "0.0000") 5
        ([({ page_content := "alpha",
             metadata := { chunk_id := "chunk-00001", section_or_page := "page-1",
                           source_file := "f.pdf", parsing_method := "deterministic" } },
           0)] : List (Document × ℚ)) =
      (mkSegment (fun _ => "0.0000")
        ({ page_content := "alpha",
           metadata := { chunk_id := "chunk-00001", section_or_page := "page-1",
                         source_file := "f.pdf", parsing_method := "deterministic" } }, 0),
       [mkCitation
        ({ page_content := "alpha",
           metadata := { chunk_id := "chunk-00001", section_or_page := "page-1",
                         source_file := "f.pdf", parsing_method := "deterministic" } }, 0)]) := by
  obtain ⟨k, hk, h1, h2, h4⟩ := C4_budget (fun _ => 3) (fun _ => "0.0000") 5
    ([({ page_content := "alpha",
         metadata := { chunk_id := "chunk-00001", section_or_page := "page-1",
                       source_file := "f.pdf", parsing_method := "deterministic" } },
       0)] : List (Document × ℚ))
  have hk1 : k = 1 := by
    rcases Nat.lt_or_ge k 1 with h | h
    · have hcon := h4 (by simpa using h)
      have hk0 : k = 0 := by omega
      subst hk0
      simp at hcon
    · simp only [List.length_singleton] at hk
      omega
  subst hk1
  rw [h1]
  simp [pyJoin]

/-! ## Claim C9 -/

/-- C9: every refusal path of `generate` returns an empty citation list
and the bare fixed refusal string with no citation suffix; the
empty-retrieval refusal and the empty-assembled-context refusal return
the identical string `"I cannot answer based on the provided
document."`, so the two outcomes are indistinguishable to the caller. -/
theorem C9_refusals :
    ∀ (cfg : RAGConfig) (tok : String → Nat) (fmtScore : ℚ → String)
      (llm : String → String → String) (question : String)
      (docs : List (Document × ℚ)),
    (docs = [] →
      generate cfg tok fmtScore llm question docs =
        ("I cannot answer based on the provided document.", [])) ∧
    (docs ≠ [] → cfg.max_query_tokens < tok question →
      generate cfg tok fmtScore llm question docs =
        ("Your question is too long. Please shorten it.", [])) ∧
    (docs ≠ [] → tok question ≤ cfg.max_query_tokens →
      (build_context tok fmtScore cfg.max_context_tokens docs).1 = "" →
      generate cfg tok fmtScore llm question docs =
        ("I cannot answer based on the provided document.", [])) := by
  intro cfg tok fmtScore llm question docs
  refine ⟨?_, ?_, ?_⟩
  · intro h
    rw [generate, if_pos h]
  · intro h1 h2
    rw [generate, if_neg h1, if_pos h2]
  · intro h1 h2 h3
    rw [generate, if_neg h1, if_neg (by omega), if_pos h3]

/-- C9 witness: the empty-retrieval refusal on a concrete question, and
the empty-context refusal when the budget is 0, produce the identical
citation-free refusal. -/
theorem C9_witness :
    generate { top_k := 4, max_distance := 1, max_query_tokens := 512,
               max_context_tokens := 0, max_output_tokens := 512 }
        (fun _ => 3) (fun _ => "0.0000") (fun _ _ => "an answer") "What is alpha?" [] =
      ("I cannot answer based on the provided document.", []) ∧
    generate { top_k := 4, max_distance := 1, max_query_tokens := 512,
               max_context_tokens := 0, max_output_tokens := 512 }
        (fun _ => 3) (fun _ => "0.0000") (fun _ _ => "an answer") "What is alpha?"
        ([({ page_content := "alpha",
             metadata := { chunk_id := "chunk-00001", section_or_page := "page-1",
                           source_file := "f.pdf", parsing_method := "deterministic" } },
           0)] : List (Document × ℚ)) =
      ("I cannot answer based on the provided document.", []) := by
  constructor
  · exact (C9_refusals _ _ _ _ _ _).1 rfl
  · exact (C9_refusals _ _ _ _ _ _).2.2 (by decide) (by decide) (by decide)

/-! ## Claim C8 -/

/-- C8: the code violates the claimed invariant — `parse_file` on a
zero-page PDF (and on a zero-slide PPTX) succeeds with a
`ParsedDocument` whose section sequence is empty instead of failing. -/
theorem C8_empty_success :
    (∃ d : ParsedDocument,
      parse_file "doc.pdf" "doc.pdf" 100 (.pdfFile []) = .ok d ∧
      d.sections_text = []) ∧
    (∃ d : ParsedDocument,
      parse_file "deck.pptx" "deck.pptx" 100 (.pptxFile []) = .ok d ∧
      d.sections_text = []) := by
  refine ⟨⟨{ source_path := "doc.pdf", source_filename := "doc.pdf",
             sections_text := [], parsing_method := "deterministic",
             page_count := 0 }, rfl, rfl⟩,
          ⟨{ source_path := "deck.pptx", source_filename := "deck.pptx",
             sections_text := [], parsing_method := "deterministic",
             page_count := 0 }, rfl, rfl⟩⟩

/-! ## Line splitting and joining lemmas -/

theorem splitOnNl_ne_nil (cs : List Char) : splitOnNl cs ≠ [] := by
  cases cs with
  | nil => simp [splitOnNl]
  | cons c cs =>
    simp only [splitOnNl]
    split
    · simp
    · rcases h : splitOnNl cs with _ | ⟨l, ls⟩ <;> simp

theorem splitOnNl_no_nl (cs : List Char) :
    ∀ l ∈ splitOnNl cs, '\n' ∉ l := by
  induction cs with
  | nil =>
    intro l hl
    simp only [splitOnNl, List.mem_singleton] at hl
    subst hl
    simp
  | cons c cs ih =>
    intro l hl
    simp only [splitOnNl] at hl
    by_cases hc : c = '\n'
    · rw [if_pos hc] at hl
      rcases List.mem_cons.mp hl with h | h
      · subst h; simp
      · exact ih l h
    · rw [if_neg hc] at hl
      rcases hsp : splitOnNl cs with _ | ⟨r, rs⟩
      · exact absurd hsp (splitOnNl_ne_nil cs)
      · rw [hsp] at hl
        rcases List.mem_cons.mp hl with h | h
        · subst h
          intro hmem
          rcases List.mem_cons.mp hmem with h | h
          · exact hc h.symm
          · exact ih r (hsp ▸ List.mem_cons_self r rs) h
        · exact ih l (hsp ▸ List.mem_cons_of_mem r h)

theorem splitOnNl_append (w : List Char) :
    ∀ cs : List Char, '\n' ∉ w →
    ∃ r rs, splitOnNl cs = r :: rs ∧ splitOnNl (w ++ cs) = (w ++ r) :: rs := by
  induction w with
  | nil =>
    intro cs _
    rcases h : splitOnNl cs with _ | ⟨r, rs⟩
    · exact absurd h (splitOnNl_ne_nil cs)
    · exact ⟨r, rs, rfl, by simp [h]⟩
  | cons a w ih =>
    intro cs hnl
    have ha : a ≠ '\n' := by
      intro h
      exact hnl (h ▸ List.mem_cons_self a w)
    obtain ⟨r, rs, h1, h2⟩ := ih cs (fun h => hnl (List.mem_cons_of_mem a h))
    refine ⟨r, rs, h1, ?_⟩
    simp only [List.cons_append, splitOnNl, if_neg ha, List.append_eq, h2]

theorem joinLinesChars_ne_nil (l : List Char) (ls : List (List Char)) (h : l ≠ []) :
    joinLinesChars (l :: ls) ≠ [] := by
  cases ls with
  | nil => simpa [joinLinesChars] using h
  | cons l2 ls => simp [joinLinesChars, h]

theorem joinLinesChars_head? (l : List Char) (ls : List (List Char)) (h : l ≠ []) :
    (joinLinesChars (l :: ls)).head? = l.head? := by
  cases ls with
  | nil => rfl
  | cons l2 ls =>
    simp only [joinLinesChars]
    rcases l with _ | ⟨c, l⟩
    · exact absurd rfl h
    · rfl

theorem joinLinesChars_getLast? :
    ∀ (ls : List (List Char)) (l : List Char), l ≠ [] → (∀ v ∈ ls, v ≠ []) →
    (joinLinesChars (l :: ls)).getLast? = ((l :: ls).getLast (by simp)).getLast? := by
  intro ls
  induction ls with
  | nil => intro l _ _; rfl
  | cons l2 ls ih =>
    intro l hl hall
    have hl2 : l2 ≠ [] := hall l2 (by simp)
    simp only [joinLinesChars]
    rw [List.getLast?_append]
    have hrec := ih l2 hl2 (fun v hv => hall v (List.mem_cons_of_mem l2 hv))
    have hne : joinLinesChars (l2 :: ls) ≠ [] := joinLinesChars_ne_nil l2 ls hl2
    have hcons : ('\n' :: joinLinesChars (l2 :: ls)).getLast? =
        (joinLinesChars (l2 :: ls)).getLast? := by
      rcases hj : joinLinesChars (l2 :: ls) with _ | ⟨d, ds⟩
      · exact absurd hj hne
      · exact List.getLast?_cons_cons ..
    rw [hcons, hrec]
    rw [List.getLast_cons (by simp : (l2 :: ls) ≠ [])]
    have hsome : ((l2 :: ls).getLast (by simp)).getLast?.isSome = true := by
      rw [List.getLast?_isSome]
      exact hall _ (List.getLast_mem _)
    rcases hopt : ((l2 :: ls).getLast (by simp : (l2 :: ls) ≠ [])).getLast? with _ | a
    · rw [hopt] at hsome; simp at hsome
    · rfl

theorem splitOnNl_join :
    ∀ (ls : List (List Char)) (l : List Char), (∀ v ∈ l :: ls, '\n' ∉ v) →
    splitOnNl (joinLinesChars (l :: ls)) = l :: ls := by
  intro ls
  induction ls with
  | nil =>
    intro l hnl
    obtain ⟨r, rs, h1, h2⟩ := splitOnNl_append l [] (hnl l (by simp))
    simp only [joinLinesChars]
    rw [show l = l ++ ([] : List Char) by simp, h2]
    simp only [splitOnNl] at h1
    obtain ⟨rfl, rfl⟩ : r = [] ∧ rs = [] := by
      constructor <;> · injection h1 with ha hb; simp_all
    simp
  | cons l2 ls ih =>
    intro l hnl
    have hjoin : joinLinesChars (l :: l2 :: ls) = l ++ '\n' :: joinLinesChars (l2 :: ls) :=
      rfl
    rw [hjoin]
    obtain ⟨r, rs, h1, h2⟩ :=
      splitOnNl_append l ('\n' :: joinLinesChars (l2 :: ls)) (hnl l (by simp))
    have hnlcons : splitOnNl ('\n' :: joinLinesChars (l2 :: ls)) =
        [] :: splitOnNl (joinLinesChars (l2 :: ls)) := by
      simp [splitOnNl]
    rw [hnlcons] at h1
    have hrec := ih l2 (fun v hv => hnl v (List.mem_cons_of_mem l hv))
    rw [hrec] at h1
    injection h1 with ha hb
    subst ha
    subst hb
    rw [h2]
    simp

/-- Splitting the newline-join of nonempty newline-free lines whose last
character is not a newline recovers exactly the lines. -/
theorem splitlinesChars_join (l : List Char) (ls : List (List Char))
    (hne : ∀ v ∈ l :: ls, v ≠ []) (hnl : ∀ v ∈ l :: ls, '\n' ∉ v) :
    splitlinesChars (joinLinesChars (l :: ls)) = l :: ls := by
  have hjoin_ne : joinLinesChars (l :: ls) ≠ [] :=
    joinLinesChars_ne_nil l ls (hne l (by simp))
  have hlast : (joinLinesChars (l :: ls)).getLast? ≠ some '\n' := by
    rw [joinLinesChars_getLast? ls l (hne l (by simp))
      (fun v hv => hne v (List.mem_cons_of_mem l hv))]
    intro hcon
    have hmem : '\n' ∈ (l :: ls).getLast (by simp) := by
      rcases hv : (l :: ls).getLast (by simp : (l :: ls) ≠ []) with _ | ⟨c, v⟩
      · exact absurd hv (hne _ (List.getLast_mem _))
      · rw [hv] at hcon
        have : '\n' = (c :: v).getLast (by simp) := by
          have hg := List.getLast?_eq_getLast (c :: v) (by simp)
          rw [hg] at hcon
          injection hcon with h
          exact h.symm
        rw [this]
        exact List.getLast_mem _
    exact hnl _ (List.getLast_mem _) hmem
  rcases hj : joinLinesChars (l :: ls) with _ | ⟨d, ds⟩
  · exact absurd hj hjoin_ne
  · rw [splitlinesChars]
    rotate_left
    · simp
    rw [← hj]
    rw [if_neg hlast]
    exact splitOnNl_join ls l hnl

/-! ## Space-collapsing lemmas -/

theorem collapseSpTab_ne_nil : ∀ l : List Char, l ≠ [] → collapseSpTab l ≠ [] := by
  intro l
  induction l with
  | nil => intro h; exact absurd rfl h
  | cons c l ih =>
    intro _
    cases l with
    | nil =>
      simp only [collapseSpTab]
      split <;> simp
    | cons d l =>
      simp only [collapseSpTab]
      split
      · exact ih (by simp)
      · simp

theorem collapseSpTab_append_nl :
    ∀ a b : List Char, collapseSpTab (a ++ '\n' :: b) = collapseSpTab a ++ '\n' :: collapseSpTab b := by
  have hnl : isSpTab '\n' = false := by decide
  intro a
  induction a with
  | nil =>
    intro b
    cases b with
    | nil => decide
    | cons d bs =>
      simp only [List.nil_append, collapseSpTab, hnl, Bool.false_and, Bool.false_eq_true,
        if_false]
  | cons c a ih =>
    intro b
    cases a with
    | nil =>
      cases b with
      | nil => by_cases hc : isSpTab c <;> simp [collapseSpTab, hc, hnl]
      | cons d bs => by_cases hc : isSpTab c <;> simp [collapseSpTab, hc, hnl]
    | cons d a' =>
      simp only [List.cons_append, collapseSpTab, List.append_eq]
      have hthis := ih b
      simp only [List.cons_append, List.append_eq] at hthis
      split
      · rw [hthis]
      · rw [hthis]
        simp

theorem collapseSpTab_join :
    ∀ ls : List (List Char),
    collapseSpTab (joinLinesChars ls) = joinLinesChars (ls.map collapseSpTab) := by
  intro ls
  induction ls with
  | nil => rfl
  | cons l ls ih =>
    cases ls with
    | nil => rfl
    | cons l2 ls' =>
      have hjoin : joinLinesChars (l :: l2 :: ls') = l ++ '\n' :: joinLinesChars (l2 :: ls') :=
        rfl
      rw [hjoin, collapseSpTab_append_nl, ih]
      rfl

theorem mem_collapseSpTab :
    ∀ l : List Char, ∀ c ∈ collapseSpTab l, (c ∈ l ∧ isSpTab c = false) ∨ c = ' ' := by
  intro l
  induction l with
  | nil => intro c hc; simp [collapseSpTab] at hc
  | cons a l ih =>
    intro c hc
    cases l with
    | nil =>
      simp only [collapseSpTab] at hc
      split at hc
      · simp only [List.mem_singleton] at hc
        exact Or.inr hc
      · simp only [List.mem_singleton] at hc
        subst hc
        rename_i h
        exact Or.inl ⟨by simp, by simpa using h⟩
    | cons d l' =>
      simp only [collapseSpTab] at hc
      split at hc
      · rcases ih c hc with ⟨h1, h2⟩ | h
        · exact Or.inl ⟨List.mem_cons_of_mem a h1, h2⟩
        · exact Or.inr h
      · rcases List.mem_cons.mp hc with h | h
        · subst h
          by_cases ha : isSpTab a
          · simp only [ha, if_true]
            exact Or.inr (by simp)
          · simp only [ha, if_false]
            exact Or.inl ⟨by simp, by simpa using ha⟩
        · rcases ih c h with ⟨h1, h2⟩ | hh
          · exact Or.inl ⟨List.mem_cons_of_mem a h1, h2⟩
          · exact Or.inr hh

theorem collapseSpTab_head? (l : List Char)
    (h : ∀ c ∈ l.head?, isSpTab c = false) : (collapseSpTab l).head? = l.head? := by
  cases l with
  | nil => rfl
  | cons a l =>
    have ha : isSpTab a = false := h a rfl
    cases l with
    | nil => simp [collapseSpTab, ha]
    | cons d l' => simp [collapseSpTab, ha]

theorem collapseSpTab_getLast? :
    ∀ l : List Char, (∀ c ∈ l.getLast?, isSpTab c = false) →
    (collapseSpTab l).getLast? = l.getLast? := by
  intro l
  induction l with
  | nil => intro _; rfl
  | cons a l ih =>
    intro h
    cases l with
    | nil =>
      have ha : isSpTab a = false := h a rfl
      simp [collapseSpTab, ha]
    | cons d l' =>
      have hlast : (a :: d :: l').getLast? = (d :: l').getLast? :=
        List.getLast?_cons_cons ..
      have hih := ih (by rw [← hlast]; exact h)
      simp only [collapseSpTab]
      split
      · rw [hih, hlast]
      · have hne : collapseSpTab (d :: l') ≠ [] := collapseSpTab_ne_nil _ (by simp)
        rcases hc : collapseSpTab (d :: l') with _ | ⟨x, xs⟩
        · exact absurd hc hne
        · rw [hc] at hih
          rw [List.getLast?_cons_cons, hih, hlast]

theorem collapseSpTab_eq_self :
    ∀ l : List Char, (∀ c ∈ l, isSpTab c = false) → collapseSpTab l = l := by
  intro l
  induction l with
  | nil => intro _; rfl
  | cons a l ih =>
    intro h
    have ha : isSpTab a = false := h a (by simp)
    cases l with
    | nil => simp [collapseSpTab, ha]
    | cons d l' =>
      simp only [collapseSpTab, ha, Bool.false_and, Bool.false_eq_true, if_false]
      rw [ih (fun c hc => h c (List.mem_cons_of_mem a hc))]

theorem space_mem_collapseSpTab :
    ∀ l : List Char, (∃ c ∈ l, isSpTab c = true) → ' ' ∈ collapseSpTab l := by
  intro l
  induction l with
  | nil => intro ⟨c, hc, _⟩; simp at hc
  | cons a l ih =>
    intro ⟨c, hc, hsp⟩
    cases l with
    | nil =>
      simp only [List.mem_singleton] at hc
      subst hc
      simp [collapseSpTab, hsp]
    | cons d l' =>
      simp only [collapseSpTab]
      rcases List.mem_cons.mp hc with h | h
      · subst h
        split
        · rename_i hcd
          exact ih ⟨d, by simp, (Bool.and_elim_right hcd)⟩
        · simp [hsp]
      · split
        · exact ih ⟨c, h, hsp⟩
        · simp only [List.mem_cons]
          exact Or.inr (ih ⟨c, h, hsp⟩)

/-- The collapsed list has no two adjacent spaces/tabs. -/
theorem collapseSpTab_chain :
    ∀ l : List Char,
    List.Chain' (fun a b => (isSpTab a && isSpTab b) = false) (collapseSpTab l) := by
  intro l
  induction l with
  | nil => simp [collapseSpTab]
  | cons a l ih =>
    cases l with
    | nil =>
      simp only [collapseSpTab]
      split <;> simp
    | cons d l' =>
      simp only [collapseSpTab]
      split
      · exact ih
      · rename_i hcd
        have hcd' : (isSpTab a && isSpTab d) = false := by
          simpa using hcd
        rw [List.chain'_cons']
        refine ⟨?_, ih⟩
        intro y hy
        by_cases ha : isSpTab a = true
        · have hd : isSpTab d = false := by
            rcases Bool.and_eq_false_iff.mp hcd' with h | h
            · exact absurd h (by simp [ha])
            · exact h
          rw [collapseSpTab_head? _ (by
            intro c hc
            simp only [List.head?_cons, Option.mem_def, Option.some.injEq] at hc
            subst hc
            exact hd)] at hy
          simp only [List.head?_cons, Option.mem_def, Option.some.injEq] at hy
          subst hy
          simp [ha, hd]
        · have ha' : isSpTab a = false := by simpa using ha
          simp [ha']

/-- Every space/tab surviving the collapse is a plain space. -/
theorem collapseSpTab_sptab_space :
    ∀ l : List Char, ∀ c ∈ collapseSpTab l, isSpTab c = true → c = ' ' := by
  intro l c hc hsp
  rcases mem_collapseSpTab l c hc with ⟨_, h⟩ | h
  · rw [h] at hsp; cases hsp
  · exact h

/-- A list whose spaces/tabs are all plain spaces with no two adjacent
is left unchanged by the collapse. -/
theorem collapseSpTab_eq_self_of_chain :
    ∀ l : List Char, (∀ c ∈ l, isSpTab c = true → c = ' ') →
    List.Chain' (fun a b => (isSpTab a && isSpTab b) = false) l →
    collapseSpTab l = l := by
  intro l
  induction l with
  | nil => intro _ _; rfl
  | cons a l ih =>
    intro hsp hchain
    have ha : (if isSpTab a = true then ' ' else a) = a := by
      by_cases h : isSpTab a = true
      · rw [if_pos h, (hsp a (by simp) h).symm]
      · rw [if_neg h]
    cases l with
    | nil =>
      simp only [collapseSpTab]
      by_cases h : isSpTab a = true
      · rw [if_pos h, (hsp a (by simp) h).symm]
      · rw [if_neg h]
    | cons d l' =>
      have hnd : (isSpTab a && isSpTab d) = false := (List.chain'_cons.mp hchain).1
      simp only [collapseSpTab]
      rw [if_neg (by simp [hnd]), ha]
      rw [ih (fun c hc h => hsp c (List.mem_cons_of_mem a hc) h)
        (List.chain'_cons.mp hchain).2]

theorem collapseSpTab_idem (l : List Char) :
    collapseSpTab (collapseSpTab l) = collapseSpTab l :=
  collapseSpTab_eq_self_of_chain _ (collapseSpTab_sptab_space l) (collapseSpTab_chain l)

/-! ## Newline-collapsing lemmas -/

/-- Without two adjacent newlines there is nothing to collapse. -/
theorem collapseNl_eq_self_of_chain :
    ∀ l : List Char, List.Chain' (fun a b => ¬(a = '\n' ∧ b = '\n')) l →
    collapseNl l = l := by
  intro l
  induction l with
  | nil => intro _; rfl
  | cons a l ih =>
    intro hchain
    match l with
    | [] => rfl
    | [d] => rfl
    | d :: e :: l' =>
      have had : ¬(a = '\n' ∧ d = '\n') := (List.chain'_cons.mp hchain).1
      simp only [collapseNl]
      rw [if_neg (by
        intro hcon
        simp only [Bool.and_eq_true, decide_eq_true_eq] at hcon
        exact had ⟨hcon.1.1, hcon.1.2⟩)]
      rw [ih (List.chain'_cons.mp hchain).2]

/-- Newline-free characters chain safely. -/
theorem chain_of_no_nl (l : List Char) (h : '\n' ∉ l) :
    List.Chain' (fun (a b : Char) => ¬(a = '\n' ∧ b = '\n')) l := by
  induction l with
  | nil => simp
  | cons a l ih =>
    rw [List.chain'_cons']
    refine ⟨?_, ih (fun hc => h (List.mem_cons_of_mem a hc))⟩
    intro y hy
    have hyl : y ∈ l := by
      cases l with
      | nil => simp at hy
      | cons b l' =>
        simp only [List.head?_cons, Option.mem_def, Option.some.injEq] at hy
        subst hy
        simp
    have hyn : y ≠ '\n' := fun hc => h (hc ▸ List.mem_cons_of_mem a hyl)
    intro hcon
    exact hyn hcon.2

/-- The newline-join of nonempty newline-free lines has no two adjacent
newlines. -/
theorem chain_join :
    ∀ (ls : List (List Char)) (l : List Char), l ≠ [] → '\n' ∉ l →
    (∀ v ∈ ls, v ≠ []) → (∀ v ∈ ls, '\n' ∉ v) →
    List.Chain' (fun (a b : Char) => ¬(a = '\n' ∧ b = '\n')) (joinLinesChars (l :: ls)) := by
  intro ls
  induction ls with
  | nil =>
    intro l _ hnl _ _
    exact chain_of_no_nl l hnl
  | cons l2 ls ih =>
    intro l hl hnl hne2 hnl2
    have hjoin : joinLinesChars (l :: l2 :: ls) = l ++ '\n' :: joinLinesChars (l2 :: ls) :=
      rfl
    rw [hjoin, List.chain'_append]
    refine ⟨chain_of_no_nl l hnl, ?_, ?_⟩
    · rw [List.chain'_cons']
      refine ⟨?_, ih l2 (hne2 l2 (by simp)) (hnl2 l2 (by simp))
        (fun v hv => hne2 v (List.mem_cons_of_mem l2 hv))
        (fun v hv => hnl2 v (List.mem_cons_of_mem l2 hv))⟩
      intro y hy
      rw [joinLinesChars_head? l2 ls (hne2 l2 (by simp))] at hy
      have hyl2 : y ∈ l2 := by
        rcases hl2 : l2 with _ | ⟨c, v⟩
        · exact absurd hl2 (hne2 l2 (by simp))
        · rw [hl2] at hy
          simp only [List.head?_cons, Option.mem_def, Option.some.injEq] at hy
          subst hy
          simp
      have hyn : y ≠ '\n' := fun hc => hnl2 l2 (by simp) (hc ▸ hyl2)
      intro hcon
      exact hyn hcon.2
    · intro x hx y hy
      have hxl : x ∈ l := by
        rcases List.getLast?_eq_getLast l hl with hg
        rw [hg] at hx
        simp only [Option.mem_def, Option.some.injEq] at hx
        subst hx
        exact List.getLast_mem _
      have hxn : x ≠ '\n' := fun hc => hnl (hc ▸ hxl)
      intro hcon
      exact hxn hcon.1

/-! ## Kept-line facts -/

theorem mem_pyStripChars (cs : List Char) : ∀ c ∈ pyStripChars cs, c ∈ cs := by
  intro c hc
  unfold pyStripChars at hc
  rw [List.mem_reverse] at hc
  have h1 := (List.dropWhile_sublist isPyWs
    (l := (cs.dropWhile isPyWs).reverse)).subset hc
  rw [List.mem_reverse] at h1
  exact (List.dropWhile_sublist isPyWs (l := cs)).subset h1

theorem splitlinesChars_no_nl (cs : List Char) :
    ∀ l ∈ splitlinesChars cs, '\n' ∉ l := by
  intro l hl
  rcases cs with _ | ⟨c, cs'⟩
  · simp [splitlinesChars] at hl
  · rw [splitlinesChars] at hl
    rotate_left
    · simp
    split at hl
    · exact splitOnNl_no_nl _ l ((List.dropLast_sublist _).subset hl)
    · exact splitOnNl_no_nl _ l hl

theorem isPyWs_false_isSpTab (c : Char) (h : isPyWs c = false) : isSpTab c = false := by
  rcases hsp : isSpTab c with _ | _
  · rfl
  · have hor := hsp
    simp only [isSpTab, Bool.or_eq_true, decide_eq_true_eq] at hor
    rcases hor with h1 | h1 <;> · subst h1; exact absurd h (by decide)

theorem collapseSpTab_no_nl (l : List Char) (h : '\n' ∉ l) :
    '\n' ∉ collapseSpTab l := by
  intro hc
  rcases mem_collapseSpTab l '\n' hc with ⟨h1, _⟩ | h1
  · exact h h1
  · cases h1

theorem isSeparatorLine_collapseSpTab (l : List Char)
    (h : isSeparatorLine l = false) : isSeparatorLine (collapseSpTab l) = false := by
  by_cases hsp : ∃ c ∈ l, isSpTab c = true
  · have hmem := space_mem_collapseSpTab l hsp
    rw [isSeparatorLine]
    rcases hall : (collapseSpTab l).all
        (fun c => c = '-' || c = '–' || c = '—' || c = '_' || c = '=') with _ | _
    · simp
    · exfalso
      have := List.all_eq_true.mp hall ' ' hmem
      simp at this
  · have : ∀ c ∈ l, isSpTab c = false := by
      intro c hc
      rcases h' : isSpTab c with _ | _
      · rfl
      · exact absurd ⟨c, hc, h'⟩ hsp
    rw [collapseSpTab_eq_self l this]
    exact h

theorem heuristicsApply_rewrap (doc : ParsedDocument) (secs : List (String × String))
    (sec_id : String) :
    heuristicsApply (rewrap doc secs) sec_id = heuristicsApply doc sec_id := rfl

theorem keepLine_no_heur (doc : ParsedDocument) (sec_id : String) (l : List Char)
    (h : heuristicsApply doc sec_id = false) :
    keepLine doc sec_id l = (decide (l ≠ []) && !(isSeparatorLine l)) := by
  rw [keepLine, h]
  simp

/-- Every kept line of a section is nonempty, stripped, newline-free and
not a decorative separator. -/
theorem cleanSectionLines_facts (doc : ParsedDocument) (sec_id text : String) :
    ∀ l ∈ cleanSectionLines doc sec_id text,
      l ≠ [] ∧ pyStripChars l = l ∧ '\n' ∉ l ∧
      (∀ c ∈ l.head?, isPyWs c = false) ∧ (∀ c ∈ l.getLast?, isPyWs c = false) ∧
      (heuristicsApply doc sec_id = false → isSeparatorLine l = false) := by
  intro l hl
  rw [cleanSectionLines] at hl
  obtain ⟨hmem, hkeep⟩ := List.mem_filter.mp hl
  obtain ⟨raw, hraw, rfl⟩ := List.mem_map.mp hmem
  have hne : pyStripChars raw ≠ [] := by
    intro hcon
    rw [keepLine, hcon] at hkeep
    simp at hkeep
  have hstrip := pyStripChars_idem raw
  refine ⟨hne, hstrip, ?_, pyStripChars_head raw, pyStripChars_getLast raw, ?_⟩
  · intro hc
    exact splitlinesChars_no_nl _ raw hraw (mem_pyStripChars raw '\n' hc)
  · intro hheur
    rw [keepLine_no_heur _ _ _ hheur] at hkeep
    rcases hs : isSeparatorLine (pyStripChars raw) with _ | _
    · rfl
    · rw [hs] at hkeep
      simp at hkeep

/-- Normalisation does not change a newline-join of nonempty,
newline-free lines with non-whitespace ends. -/
theorem normalize_join (ls : List (List Char)) (l : List Char)
    (hne : ∀ v ∈ l :: ls, v ≠ [])
    (hnl : ∀ v ∈ l :: ls, '\n' ∉ v)
    (hhead : ∀ v ∈ l :: ls, ∀ c ∈ v.head?, isPyWs c = false)
    (hlast : ∀ v ∈ l :: ls, ∀ c ∈ v.getLast?, isPyWs c = false) :
    collapseNl (joinLinesChars (l :: ls)) = joinLinesChars (l :: ls) ∧
    pyStripChars (joinLinesChars (l :: ls)) = joinLinesChars (l :: ls) := by
  constructor
  · exact collapseNl_eq_self_of_chain _
      (chain_join ls l (hne l (by simp)) (hnl l (by simp))
        (fun v hv => hne v (List.mem_cons_of_mem l hv))
        (fun v hv => hnl v (List.mem_cons_of_mem l hv)))
  · apply pyStripChars_eq_self
    · rw [joinLinesChars_head? l ls (hne l (by simp))]
      exact hhead l (by simp)
    · rw [joinLinesChars_getLast? ls l (hne l (by simp))
        (fun v hv => hne v (List.mem_cons_of_mem l hv))]
      exact hlast _ (List.getLast_mem _)

/-- Re-cleaning a section already cleaned without the paginated
heuristics changes nothing. -/
theorem cleanSection_idem (doc doc' : ParsedDocument) (sec_id text : String)
    (h1 : heuristicsApply doc sec_id = false)
    (h2 : heuristicsApply doc' sec_id = false) :
    cleanSection doc' sec_id (cleanSection doc sec_id text) =
      cleanSection doc sec_id text := by
  rcases hL : cleanSectionLines doc sec_id text with _ | ⟨l0, ls0⟩
  · have hout : cleanSection doc sec_id text = "" := by
      rw [cleanSection, hL]
      rfl
    rw [hout]
    rfl
  · have hfacts : ∀ v ∈ l0 :: ls0,
        v ≠ [] ∧ pyStripChars v = v ∧ '\n' ∉ v ∧
        (∀ c ∈ v.head?, isPyWs c = false) ∧ (∀ c ∈ v.getLast?, isPyWs c = false) ∧
        isSeparatorLine v = false := by
      intro v hv
      have hv' : v ∈ cleanSectionLines doc sec_id text := by rw [hL]; exact hv
      obtain ⟨a, b, c, d, e, f⟩ := cleanSectionLines_facts doc sec_id text v hv'
      exact ⟨a, b, c, d, e, f h1⟩
    have hmapcons : (l0 :: ls0).map collapseSpTab =
        collapseSpTab l0 :: ls0.map collapseSpTab := List.map_cons ..
    have hfacts' : ∀ v' ∈ collapseSpTab l0 :: ls0.map collapseSpTab,
        v' ≠ [] ∧ '\n' ∉ v' ∧
        (∀ c ∈ v'.head?, isPyWs c = false) ∧ (∀ c ∈ v'.getLast?, isPyWs c = false) ∧
        isSeparatorLine v' = false ∧ pyStripChars v' = v' ∧
        collapseSpTab v' = v' := by
      intro v' hv'
      rw [← hmapcons] at hv'
      obtain ⟨v, hv, rfl⟩ := List.mem_map.mp hv'
      obtain ⟨hvne, _, hvnl, hvhead, hvlast, hvsep⟩ := hfacts v hv
      have hh : (collapseSpTab v).head? = v.head? := by
        apply collapseSpTab_head?
        intro c hc
        exact isPyWs_false_isSpTab c (hvhead c hc)
      have hg : (collapseSpTab v).getLast? = v.getLast? := by
        apply collapseSpTab_getLast?
        intro c hc
        exact isPyWs_false_isSpTab c (hvlast c hc)
      have hhead' : ∀ c ∈ (collapseSpTab v).head?, isPyWs c = false := by
        rw [hh]; exact hvhead
      have hlast' : ∀ c ∈ (collapseSpTab v).getLast?, isPyWs c = false := by
        rw [hg]; exact hvlast
      exact ⟨collapseSpTab_ne_nil v hvne, collapseSpTab_no_nl v hvnl,
        hhead', hlast',
        isSeparatorLine_collapseSpTab v hvsep,
        pyStripChars_eq_self _ hhead' hlast',
        collapseSpTab_idem v⟩
    have hnorm := normalize_join (ls0.map collapseSpTab) (collapseSpTab l0)
      (fun v hv => (hfacts' v hv).1)
      (fun v hv => (hfacts' v hv).2.1)
      (fun v hv => (hfacts' v hv).2.2.1)
      (fun v hv => (hfacts' v hv).2.2.2.1)
    have hout : cleanSection doc sec_id text =
        String.mk (joinLinesChars (collapseSpTab l0 :: ls0.map collapseSpTab)) := by
      rw [cleanSection, hL, normalize_spaces, collapseSpTab_join, hmapcons,
        hnorm.1, hnorm.2]
    rw [hout]
    have hsplit : splitlinesChars (joinLinesChars
        (collapseSpTab l0 :: ls0.map collapseSpTab)) =
        collapseSpTab l0 :: ls0.map collapseSpTab :=
      splitlinesChars_join _ _ (fun v hv => (hfacts' v hv).1)
        (fun v hv => (hfacts' v hv).2.1)
    have hmapstrip : (collapseSpTab l0 :: ls0.map collapseSpTab).map pyStripChars =
        collapseSpTab l0 :: ls0.map collapseSpTab := by
      rw [List.map_congr_left (fun v hv => (hfacts' v hv).2.2.2.2.2.1)]
      exact List.map_id _
    have hfilter : (collapseSpTab l0 :: ls0.map collapseSpTab).filter
        (keepLine doc' sec_id) = collapseSpTab l0 :: ls0.map collapseSpTab := by
      rw [List.filter_eq_self]
      intro v hv
      rw [keepLine_no_heur doc' sec_id v h2]
      obtain ⟨hvne, _, _, _, hvsep, _, _⟩ := hfacts' v hv
      simp [hvne, hvsep]
    have hmapidem : (collapseSpTab l0 :: ls0.map collapseSpTab).map collapseSpTab =
        collapseSpTab l0 :: ls0.map collapseSpTab := by
      rw [List.map_congr_left (fun v hv => (hfacts' v hv).2.2.2.2.2.2)]
      exact List.map_id _
    rw [cleanSection, cleanSectionLines]
    rw [show (String.mk (joinLinesChars
        (collapseSpTab l0 :: ls0.map collapseSpTab))).data =
        joinLinesChars (collapseSpTab l0 :: ls0.map collapseSpTab) from rfl]
    rw [hsplit, hmapstrip, hfilter, normalize_spaces, collapseSpTab_join, hmapidem,
      hnorm.1, hnorm.2]

/-! ## Claim C6 -/

/-- C6 counterexample: cleaning is not idempotent for a paginated
deterministic document.  A repeated page title hidden behind a leading
blank line is not a header candidate on the first pass (the code takes
`lines[0]`, here blank) but becomes one on the second pass, so
re-cleaning removes further lines. -/
theorem C6_counterexample :
    clean_text (rewrap
        { source_path := "doc.pdf", source_filename := "doc.pdf",
          sections_text := [("page-1", "\nTitle\nbodyone"), ("page-2", "\nTitle\nbodytwo")],
          parsing_method := "deterministic", page_count := 2 }
        (clean_text
          { source_path := "doc.pdf", source_filename := "doc.pdf",
            sections_text := [("page-1", "\nTitle\nbodyone"), ("page-2", "\nTitle\nbodytwo")],
            parsing_method := "deterministic", page_count := 2 })) ≠
      clean_text
        { source_path := "doc.pdf", source_filename := "doc.pdf",
          sections_text := [("page-1", "\nTitle\nbodyone"), ("page-2", "\nTitle\nbodytwo")],
          parsing_method := "deterministic", page_count := 2 } ∧
    clean_text
        { source_path := "doc.pdf", source_filename := "doc.pdf",
          sections_text := [("page-1", "\nTitle\nbodyone"), ("page-2", "\nTitle\nbodytwo")],
          parsing_method := "deterministic", page_count := 2 } =
      [("page-1", "Title\nbodyone"), ("page-2", "Title\nbodytwo")] ∧
    clean_text (rewrap
        { source_path := "doc.pdf", source_filename := "doc.pdf",
          sections_text := [("page-1", "\nTitle\nbodyone"), ("page-2", "\nTitle\nbodytwo")],
          parsing_method := "deterministic", page_count := 2 }
        [("page-1", "Title\nbodyone"), ("page-2", "Title\nbodytwo")]) =
      [("page-1", "bodyone"), ("page-2", "bodytwo")] := by
  refine ⟨by decide, by decide, by decide⟩

/-- C6 (amended): cleaning is idempotent for every document none of
whose sections is subject to the paginated header/footer/page-number
heuristics (parsing method not `"deterministic"`, or section id not
starting with `"page-"`): re-cleaning the cleaner's output re-wrapped
with the same section ids and parsing method returns it unchanged.  For
paginated deterministic documents re-cleaning can remove further lines
(newly common headers can emerge), as the counterexample shows. -/
theorem C6_amended :
    ∀ doc : ParsedDocument,
    (∀ st ∈ doc.sections_text, heuristicsApply doc st.1 = false) →
    clean_text (rewrap doc (clean_text doc)) = clean_text doc := by
  intro doc h
  have hsections : (rewrap doc (clean_text doc)).sections_text =
      doc.sections_text.map (fun st => (st.1, cleanSection doc st.1 st.2)) := rfl
  have hstep : clean_text (rewrap doc (clean_text doc)) =
      doc.sections_text.map (fun st => (st.1,
        cleanSection (rewrap doc (clean_text doc)) st.1 (cleanSection doc st.1 st.2))) := by
    rw [clean_text, hsections, List.map_map]
    rfl
  rw [hstep, clean_text]
  apply List.map_congr_left
  intro st hst
  have hheur : heuristicsApply doc st.1 = false := h st hst
  have hheur' : heuristicsApply (rewrap doc (clean_text doc)) st.1 = false := by
    rw [heuristicsApply_rewrap]
    exact hheur
  show (st.1, cleanSection (rewrap doc (clean_text doc)) st.1 (cleanSection doc st.1 st.2)) =
    (st.1, cleanSection doc st.1 st.2)
  rw [cleanSection_idem doc (rewrap doc (clean_text doc)) st.1 st.2 hheur hheur']

/-- C6 witness: the amended statement evaluated on a one-section
non-paginated document with messy whitespace. -/
theorem C6_witness :
    clean_text (rewrap
        { source_path := "notes.txt", source_filename := "notes.txt",
          sections_text := [("section-1", "  Hello   world\n\n\n-----\nbye  ")],
          parsing_method := "deterministic", page_count := 1 }
        (clean_text
          { source_path := "notes.txt", source_filename := "notes.txt",
            sections_text := [("section-1", "  Hello   world\n\n\n-----\nbye  ")],
            parsing_method := "deterministic", page_count := 1 })) =
      clean_text
        { source_path := "notes.txt", source_filename := "notes.txt",
          sections_text := [("section-1", "  Hello   world\n\n\n-----\nbye  ")],
          parsing_method := "deterministic", page_count := 1 } :=
  C6_amended _ (by decide)

/-! ## Claim C5 -/

/-- C5 counterexample: the code takes `lines[0].strip()` — the first
line, possibly blank — as the header candidate, not the first
*non-empty* line as the claim states.  On a two-page document whose
repeated header `HDR` sits behind a leading blank line, the claim's
cleaner removes `HDR` but the code keeps it. -/
theorem C5_counterexample :
    clean_text
        { source_path := "doc.pdf", source_filename := "doc.pdf",
          sections_text := [("page-1", "\nHDR\nbodyone"), ("page-2", "\nHDR\nbodytwo")],
          parsing_method := "deterministic", page_count := 2 } ≠
      clean_textClaim
        { source_path := "doc.pdf", source_filename := "doc.pdf",
          sections_text := [("page-1", "\nHDR\nbodyone"), ("page-2", "\nHDR\nbodytwo")],
          parsing_method := "deterministic", page_count := 2 } ∧
    clean_text
        { source_path := "doc.pdf", source_filename := "doc.pdf",
          sections_text := [("page-1", "\nHDR\nbodyone"), ("page-2", "\nHDR\nbodytwo")],
          parsing_method := "deterministic", page_count := 2 } =
      [("page-1", "HDR\nbodyone"), ("page-2", "HDR\nbodytwo")] ∧
    clean_textClaim
        { source_path := "doc.pdf", source_filename := "doc.pdf",
          sections_text := [("page-1", "\nHDR\nbodyone"), ("page-2", "\nHDR\nbodytwo")],
          parsing_method := "deterministic", page_count := 2 } =
      [("page-1", "bodyone"), ("page-2", "bodytwo")] := by
  refine ⟨by decide, by decide, by decide⟩

/-- C5 (amended): the cleaner computes the first and last *line* of
every section (stripped; possibly the empty string for a blank line),
counts occurrences of each distinct value across all sections,
classifies a value as a common header (resp. footer) when its count is
`≥ max(2, total_sections // 5)`, and drops matching lines (and
page-number lines) only in sections of paginated deterministic
extraction: any value classified common is absent from the kept lines
of every such section.  A 3-page document with the literal first line
`CONFIDENTIAL` on every page has `CONFIDENTIAL` absent from every
cleaned section. -/
theorem C5_amended :
    (∀ (doc : ParsedDocument) (sec_id text : String) (v : List Char),
      heuristicsApply doc sec_id = true →
      isCommonHeader doc.sections_text v = true →
      v ∉ cleanSectionLines doc sec_id text) ∧
    (∀ (doc : ParsedDocument) (sec_id text : String) (v : List Char),
      heuristicsApply doc sec_id = true →
      isCommonFooter doc.sections_text v = true →
      v ∉ cleanSectionLines doc sec_id text) ∧
    clean_text
        { source_path := "doc.pdf", source_filename := "doc.pdf",
          sections_text :=
            [("page-1", "CONFIDENTIAL\nAlpha body one\nPage 1"),
             ("page-2", "CONFIDENTIAL\nBeta body two\nPage 2"),
             ("page-3", "CONFIDENTIAL\nGamma body three\nPage 3")],
          parsing_method := "deterministic", page_count := 3 } =
      [("page-1", "Alpha body one"), ("page-2", "Beta body two"),
       ("page-3", "Gamma body three")] := by
  refine ⟨?_, ?_, by decide⟩
  · intro doc sec_id text v hheur hch hmem
    rw [cleanSectionLines] at hmem
    obtain ⟨_, hkeep⟩ := List.mem_filter.mp hmem
    rw [keepLine, hheur, hch] at hkeep
    simp at hkeep
  · intro doc sec_id text v hheur hcf hmem
    rw [cleanSectionLines] at hmem
    obtain ⟨_, hkeep⟩ := List.mem_filter.mp hmem
    rw [keepLine, hheur, hcf] at hkeep
    simp at hkeep

/-- C5 witness: on the 3-page CONFIDENTIAL document the header value is
classified common and is absent from the kept lines of page 1. -/
theorem C5_witness :
    ("CONFIDENTIAL" : String).data ∉
      cleanSectionLines
        { source_path := "doc.pdf", source_filename := "doc.pdf",
          sections_text :=
            [("page-1", "CONFIDENTIAL\nAlpha body one\nPage 1"),
             ("page-2", "CONFIDENTIAL\nBeta body two\nPage 2"),
             ("page-3", "CONFIDENTIAL\nGamma body three\nPage 3")],
          parsing_method := "deterministic", page_count := 3 }
        "page-1" "CONFIDENTIAL\nAlpha body one\nPage 1" :=
  C5_amended.1 _ "page-1" _ _ (by decide) (by decide)

end Documint
